import Mathlib

/-!
Shallow embedding of the unit-normalization / BOQ line-item subsystem:
the unit resolver and unit-creation rule of `scripts/migrate_units_names_to_ids.cjs`,
the per-item branch of `scripts/units_normalize_runner.cjs`, the legacy-field
cleanup job, the audit/export CSV job, and the display-unit logic of the BOQ
viewer (`src/pages/BOQs.tsx`) and the PDF generator (`src/utils/boqPdfGenerator.ts`).

JavaScript values are modelled as follows: a possibly-absent string field is
`Option String` (with `none` covering both `undefined` and `null`); JS
truthiness of such a field is `truthyS` (present and non-empty); numeric JSON
fields are modelled as `Option Int`; `String.prototype.toLowerCase`,
`toUpperCase` and `substring(0,3)` are modelled codepoint-wise on `String.data`.
-/

namespace Layons

/-- JS truthiness of a possibly-absent string field: present and non-empty. -/
def truthyS : Option String → Bool
  | none => false
  | some s => !(s == "")

/-- The string value of a field, with absent read as `''` (JS `x || ''`). -/
def strVal : Option String → String
  | none => ""
  | some s => s

/-- JS `a || null` on a string field: keep a truthy value, collapse falsy to null. -/
def jsOrNull (a : Option String) : Option String :=
  if truthyS a then a else none

/-- Codepoint-wise model of JS `toLowerCase()`. -/
def lower (s : String) : String := ⟨s.data.map Char.toLower⟩

/-- Codepoint-wise model of JS `substring(0,3).toUpperCase()`. -/
def upperPrefix3 (s : String) : String := ⟨(s.data.take 3).map Char.toUpper⟩

/-- Codepoint-wise model of JS `.length` on a string. -/
def strLen (s : String) : Nat := s.data.length

/-- A row of the `units` table: `SELECT id, name, abbreviation FROM units`.
`id` is a DB-generated UUID (non-null), `name` is NOT NULL, `abbreviation`
is nullable. -/
structure DbUnit where
  id : String
  name : String
  abbreviation : Option String
deriving DecidableEq, Repr

/-- JS `u.abbreviation || u.name`. -/
def abbrOrName (u : DbUnit) : String :=
  match u.abbreviation with
  | some a => if a == "" then u.name else a
  | none => u.name

/-- One BOQ line item as stored in `boqs.data.sections[].items[]`. -/
structure Item where
  description : Option String
  quantity : Option Int
  rate : Option Int
  line_total : Option Int
  unit : Option String
  unit_name : Option String
  unit_id : Option String
  unit_abbreviation : Option String
deriving DecidableEq, Repr

/-- A section of a BOQ document; `items := none` models a missing or
non-array `items` field (skipped by every batch job). -/
structure Sec where
  title : Option String
  items : Option (List Item)
deriving DecidableEq, Repr

/-- A row of the `boqs` table; `sections := none` models a missing `data`
or a missing/non-array `data.sections` (skipped by every batch job). -/
structure Boq where
  id : String
  number : String
  company_id : String
  sections : Option (List Sec)
deriving DecidableEq, Repr

/-- One company's slice of the store: its `units` rows and its `boqs` rows,
as loaded by the per-company queries of the batch jobs. -/
structure Company where
  units : List DbUnit
  boqs : List Boq
deriving DecidableEq, Repr

/-! ## Unit Resolver (migrate_units_names_to_ids.cjs, lines 43-44) -/

/-- `units.find(u => u.name && u.name.toLowerCase() === unitName.toLowerCase())`. -/
def findByName (units : List DbUnit) (tok : String) : Option DbUnit :=
  units.find? (fun u => !(u.name == "") && lower u.name == lower tok)

/-- `units.find(u => u.abbreviation && u.abbreviation.toLowerCase() === unitName.toLowerCase())`. -/
def findByAbbr (units : List DbUnit) (tok : String) : Option DbUnit :=
  units.find? (fun u =>
    match u.abbreviation with
    | some a => !(a == "") && lower a == lower tok
    | none => false)

/-- The resolver: first match by name (case-insensitive), else by
abbreviation (case-insensitive), else not found. -/
def resolve (units : List DbUnit) (tok : String) : Option DbUnit :=
  match findByName units tok with
  | some u => some u
  | none => findByAbbr units tok

/-- Abbreviation synthesized for a newly created unit:
`unitName.length <= 6 ? unitName : unitName.substring(0,3).toUpperCase()`. -/
def mkAbbrev (tok : String) : String :=
  if strLen tok ≤ 6 then tok else upperPrefix3 tok

/-- Model of a DB-generated id for the n-th unit created in a run.
Real ids are UUIDs; all that matters is that they are non-empty strings. -/
def freshId (n : Nat) : String := "u-new-" ++ toString n

/-- Resolve a token against the company's unit list, creating (and appending)
a new unit on no match (migrate_units_names_to_ids.cjs, lines 43-62).
Returns the unit, the updated in-memory unit list, and the id counter. -/
def resolveOrCreate (tok : String) (units : List DbUnit) (fresh : Nat) :
    DbUnit × List DbUnit × Nat :=
  match resolve units tok with
  | some u => (u, units, fresh)
  | none =>
      let nu : DbUnit := ⟨freshId fresh, tok, some (mkAbbrev tok)⟩
      (nu, units ++ [nu], fresh + 1)

/-! ## Migration Pipeline per-item step (migrate_units_names_to_ids.cjs, lines 35-63) -/

/-- `item.unit_name || item.unit`, then skipped when falsy. -/
def itemToken (it : Item) : String :=
  if truthyS it.unit_name then strVal it.unit_name else strVal it.unit

/-- The migration pipeline's per-item step: skip when `unit_id` is truthy or
no token is present; otherwise resolve-or-create and write back
`unit_id`, `unit_name` (the unit's canonical name) and
`unit_abbreviation` (`match.abbreviation || null`). -/
def migrateItem (units : List DbUnit) (fresh : Nat) (it : Item) :
    Item × List DbUnit × Nat :=
  if truthyS it.unit_id then (it, units, fresh)
  else
    let tok := itemToken it
    if tok == "" then (it, units, fresh)
    else
      let (u, units', fresh') := resolveOrCreate tok units fresh
      ({ it with unit_id := some u.id, unit_name := some u.name,
                 unit_abbreviation := jsOrNull u.abbreviation }, units', fresh')

/-! ## Normalization Runner per-item step (units_normalize_runner.cjs, lines 29-42) -/

/-- `units.find(u => u.id === item.unit_id)`. -/
def findById (units : List DbUnit) (uid : String) : Option DbUnit :=
  units.find? (fun u => u.id == uid)

/-- The normalization runner's per-item step: only when `unit_abbreviation`
is falsy, fill it (and where derivable `unit_id` / `unit_name`) by lookup
only — it never creates a unit and never deletes a field. -/
def normalizeItem (units : List DbUnit) (it : Item) : Item :=
  if truthyS it.unit_abbreviation then it
  else if truthyS it.unit_id then
    match findById units (strVal it.unit_id) with
    | some u => { it with unit_abbreviation := some (abbrOrName u), unit_name := some u.name }
    | none => it
  else if truthyS it.unit_name then
    match findByName units (strVal it.unit_name) with
    | some u => { it with unit_id := some u.id, unit_abbreviation := some (abbrOrName u) }
    | none => it
  else if truthyS it.unit then
    match (units.find? (fun u =>
        (!(u.name == "") && lower u.name == lower (strVal it.unit)) ||
        (match u.abbreviation with
         | some a => !(a == "") && lower a == lower (strVal it.unit)
         | none => false))) with
    | some u => { it with unit_id := some u.id,
                          unit_abbreviation := some (abbrOrName u),
                          unit_name := some u.name }
    | none => it
  else it

/-! ## Legacy Field Cleanup per-item step (cleanup job, per-item branch) -/

/-- `if (item.unit_id && (item.unit || item.unit_name)) { delete item.unit; delete item.unit_name; }`. -/
def cleanupItem (it : Item) : Item :=
  if truthyS it.unit_id && (truthyS it.unit || truthyS it.unit_name) then
    { it with unit := none, unit_name := none }
  else it

/-! ## Batch runs

Each job iterates companies, then that company's BOQs, then sections, then
items, threading the in-memory unit list (and, for the migration pipeline,
the id counter for newly created units) left to right, exactly as the
`for`-loops of the scripts do. A BOQ with `sections = none` and a section
with `items = none` are skipped (`continue`). -/

/-- Migration pipeline over one section's item array. -/
def migrateItems : List DbUnit → Nat → List Item → List Item × List DbUnit × Nat
  | us, f, [] => ([], us, f)
  | us, f, it :: rest =>
      let (it', us', f') := migrateItem us f it
      let (rest', us'', f'') := migrateItems us' f' rest
      (it' :: rest', us'', f'')

/-- Migration pipeline over one section (skips a non-array `items`). -/
def migrateSec (us : List DbUnit) (f : Nat) (s : Sec) : Sec × List DbUnit × Nat :=
  match s.items with
  | none => (s, us, f)
  | some its =>
      let (its', us', f') := migrateItems us f its
      ({ s with items := some its' }, us', f')

/-- Migration pipeline over a BOQ's section list. -/
def migrateSecs : List DbUnit → Nat → List Sec → List Sec × List DbUnit × Nat
  | us, f, [] => ([], us, f)
  | us, f, s :: rest =>
      let (s', us', f') := migrateSec us f s
      let (rest', us'', f'') := migrateSecs us' f' rest
      (s' :: rest', us'', f'')

/-- Migration pipeline over one BOQ (skips a missing/non-array `data.sections`). -/
def migrateBoq (us : List DbUnit) (f : Nat) (b : Boq) : Boq × List DbUnit × Nat :=
  match b.sections with
  | none => (b, us, f)
  | some secs =>
      let (secs', us', f') := migrateSecs us f secs
      ({ b with sections := some secs' }, us', f')

/-- Migration pipeline over a company's BOQ list. -/
def migrateBoqs : List DbUnit → Nat → List Boq → List Boq × List DbUnit × Nat
  | us, f, [] => ([], us, f)
  | us, f, b :: rest =>
      let (b', us', f') := migrateBoq us f b
      let (rest', us'', f'') := migrateBoqs us' f' rest
      (b' :: rest', us'', f'')

/-- Migration pipeline over one company: its unit list is loaded once and
mutated in memory as new units are created. -/
def migrateCompany (f : Nat) (c : Company) : Company × Nat :=
  let (bs', us', f') := migrateBoqs c.units f c.boqs
  (⟨us', bs'⟩, f')

/-- Migration pipeline over the company list, threading the id counter. -/
def migrateCompanies : Nat → List Company → List Company
  | _, [] => []
  | f, c :: rest =>
      let (c', f') := migrateCompany f c
      c' :: migrateCompanies f' rest

/-- One full run of the Migration Pipeline over the whole store. -/
def runMigration (cs : List Company) : List Company := migrateCompanies 0 cs

/-- Normalization runner over one section. -/
def normalizeSec (us : List DbUnit) (s : Sec) : Sec :=
  { s with items := s.items.map (List.map (normalizeItem us)) }

/-- Normalization runner over one BOQ. -/
def normalizeBoq (us : List DbUnit) (b : Boq) : Boq :=
  { b with sections := b.sections.map (List.map (normalizeSec us)) }

/-- Normalization runner over one company: lookup-only, the unit list is
never modified. -/
def normalizeCompany (c : Company) : Company :=
  ⟨c.units, c.boqs.map (normalizeBoq c.units)⟩

/-- One full run of the Normalization Runner over the whole store. -/
def runNormalize (cs : List Company) : List Company :=
  cs.map normalizeCompany

/-- Legacy field cleanup over one BOQ (the cleanup job loads all BOQs
without consulting units). -/
def cleanupBoq (b : Boq) : Boq :=
  { b with sections := b.sections.map (List.map (fun s =>
      { s with items := s.items.map (List.map cleanupItem) })) }

/-- One full run of the Legacy Field Cleanup over the whole store. -/
def runCleanup (cs : List Company) : List Company :=
  cs.map (fun c => ⟨c.units, c.boqs.map cleanupBoq⟩)

/-! ## Item loops over raw JS arrays

The scripts iterate `sec.items` with `for (const item of sec.items)` and
immediately access a field of `item` (`item.unit_id`, `item.unit_abbreviation`).
A `null`/`undefined` entry in the array therefore raises a `TypeError`,
which the surrounding `catch` turns into a whole-run `ROLLBACK` and a
non-zero exit. `none : Option Item` models such an entry; the result `none`
models the thrown error. -/

/-- Migration item loop over a raw array that may contain null entries. -/
def migrateItemsJs : List DbUnit → Nat → List (Option Item) →
    Option (List (Option Item) × List DbUnit × Nat)
  | us, f, [] => some ([], us, f)
  | _, _, none :: _ => none
  | us, f, some it :: rest =>
      let (it', us', f') := migrateItem us f it
      (migrateItemsJs us' f' rest).map
        (fun r => (some it' :: r.1, r.2.1, r.2.2))

/-- Normalization item loop over a raw array that may contain null entries. -/
def normalizeItemsJs (us : List DbUnit) : List (Option Item) →
    Option (List (Option Item))
  | [] => some []
  | none :: _ => none
  | some it :: rest =>
      (normalizeItemsJs us rest).map (fun r => some (normalizeItem us it) :: r)

/-- Cleanup item loop over a raw array that may contain null entries. -/
def cleanupItemsJs : List (Option Item) → Option (List (Option Item))
  | [] => some []
  | none :: _ => none
  | some it :: rest =>
      (cleanupItemsJs rest).map (fun r => some (cleanupItem it) :: r)

/-! ## Document renderers -/

/-- Display unit of the BOQ viewing table (src/pages/BOQs.tsx): resolve
`unit_id` against the company's unit list and use `abbreviation || name`;
else fall back to `unit_name`, then legacy `unit`, then `'-'`. -/
def viewerUnitDisplay (units : List DbUnit) (it : Item) : String :=
  if truthyS it.unit_id then
    match findById units (strVal it.unit_id) with
    | some u => abbrOrName u
    | none =>
        if truthyS it.unit_name then strVal it.unit_name
        else if truthyS it.unit then strVal it.unit
        else "-"
  else
    if truthyS it.unit_name then strVal it.unit_name
    else if truthyS it.unit then strVal it.unit
    else "-"

/-- `unit_of_measure` computed for each PDF row by `downloadBOQPDF`
(src/utils/boqPdfGenerator.ts): `it.unit_name || it.unit || 'Item'` —
note that neither `unit_id` nor any unit list is consulted. -/
def pdfUnitOfMeasure (it : Item) : String :=
  if truthyS it.unit_name then strVal it.unit_name
  else if truthyS it.unit then strVal it.unit
  else "Item"

/-- `unit_abbreviation` passed for each PDF row by `downloadBOQPDF`:
`it.unit_abbreviation || ''`. -/
def pdfUnitAbbreviation (it : Item) : String :=
  strVal it.unit_abbreviation

/-! ## Helper lemmas -/

/-- A string is `""` iff its character list is empty. -/
theorem str_eq_empty_iff (s : String) : s = "" ↔ s.data = [] := by
  constructor
  · intro h; rw [h]
  · intro h; cases s; simp only at h; rw [h]

/-- `lower` maps `""` and only `""` to `""`. -/
theorem lower_eq_empty_iff (s : String) : lower s = "" ↔ s = "" := by
  rw [str_eq_empty_iff, str_eq_empty_iff]
  simp [lower]

/-- If two strings agree after `lower` and one is non-empty, so is the other. -/
theorem ne_empty_of_lower_eq {s t : String} (h : lower s = lower t) (ht : t ≠ "") :
    s ≠ "" := by
  intro hs
  apply ht
  rw [← lower_eq_empty_iff, ← h, lower_eq_empty_iff, hs]

/-- `find?` returns the head of the unique decomposition at the first
satisfying element. -/
theorem find?_first {α : Type} (p : α → Bool) :
    ∀ (l₁ : List α) (a : α) (l₂ : List α), (∀ v ∈ l₁, p v = false) → p a = true →
      (l₁ ++ a :: l₂).find? p = some a := by
  intro l₁ a l₂ h₁ ha
  induction l₁ with
  | nil => simp [List.find?_cons_of_pos, ha]
  | cons x xs ih =>
      have hx : ¬ p x = true := by simp [h₁ x (by simp)]
      rw [List.cons_append, List.find?_cons_of_neg _ hx]
      exact ih (fun v hv => h₁ v (by simp [hv]))

/-- Propositional form of a case-insensitive name match. -/
def nameMatches (tok : String) (u : DbUnit) : Prop := lower u.name = lower tok

/-- Propositional form of a case-insensitive abbreviation match. -/
def abbrMatches (tok : String) (u : DbUnit) : Prop :=
  ∃ a, u.abbreviation = some a ∧ lower a = lower tok

/-- For a non-empty token, the boolean name predicate used by the scripts
agrees with `nameMatches`. -/
theorem findByName_pred_iff {tok : String} (htok : tok ≠ "") (u : DbUnit) :
    (!(u.name == "") && (lower u.name == lower tok)) = true ↔ nameMatches tok u := by
  constructor
  · intro h
    simp only [Bool.and_eq_true, beq_iff_eq, Bool.not_eq_true', beq_eq_false_iff_ne] at h
    exact h.2
  · intro h
    simp only [Bool.and_eq_true, beq_iff_eq, Bool.not_eq_true', beq_eq_false_iff_ne]
    exact ⟨ne_empty_of_lower_eq h htok, h⟩

/-- For a non-empty token, the boolean abbreviation predicate used by the
scripts agrees with `abbrMatches`. -/
theorem findByAbbr_pred_iff {tok : String} (htok : tok ≠ "") (u : DbUnit) :
    (match u.abbreviation with
     | some a => !(a == "") && (lower a == lower tok)
     | none => false) = true ↔ abbrMatches tok u := by
  cases habb : u.abbreviation with
  | none => simp [abbrMatches, habb]
  | some a =>
      simp only [abbrMatches, habb, Bool.and_eq_true, beq_iff_eq,
        Bool.not_eq_true', beq_eq_false_iff_ne, Option.some.injEq]
      constructor
      · intro h; exact ⟨a, rfl, h.2⟩
      · rintro ⟨a', ha', h⟩; cases ha'; exact ⟨ne_empty_of_lower_eq h htok, h⟩

/-- `resolve` can only fail when the name lookup fails. -/
theorem findByName_eq_none_of_resolve_eq_none {units : List DbUnit} {tok : String}
    (h : resolve units tok = none) : findByName units tok = none := by
  unfold resolve at h
  cases hn : findByName units tok with
  | none => rfl
  | some u => rw [hn] at h; exact absurd h (by simp)

/-- C6: for every non-empty token and unit list, `resolve` returns the first
unit in list order whose name matches the token case-insensitively; only when
no unit's name matches does it return the first unit whose abbreviation
matches case-insensitively (so a name match on a later unit beats an
abbreviation match on an earlier one); when neither matches any unit it
returns `none` (NOT_FOUND). -/
theorem resolve_order_spec (units : List DbUnit) (tok : String) (htok : tok ≠ "") :
    (∀ u, resolve units tok = some u →
        u ∈ units ∧ (nameMatches tok u ∨ abbrMatches tok u)) ∧
    (∀ l₁ u l₂, units = l₁ ++ u :: l₂ → nameMatches tok u →
        (∀ v ∈ l₁, ¬ nameMatches tok v) → resolve units tok = some u) ∧
    ((∀ v ∈ units, ¬ nameMatches tok v) →
      ∀ l₁ u l₂, units = l₁ ++ u :: l₂ → abbrMatches tok u →
        (∀ v ∈ l₁, ¬ abbrMatches tok v) → resolve units tok = some u) ∧
    ((∀ v ∈ units, ¬ nameMatches tok v ∧ ¬ abbrMatches tok v) →
        resolve units tok = none) := by
  refine ⟨?_, ?_, ?_, ?_⟩
  · intro u h
    unfold resolve at h
    cases hn : findByName units tok with
    | some v =>
        rw [hn] at h
        cases h
        have hn' : units.find?
            (fun u => !(u.name == "") && (lower u.name == lower tok)) = some u := hn
        have hpu := List.find?_some hn'
        exact ⟨List.mem_of_find?_eq_some hn',
          Or.inl ((findByName_pred_iff htok u).mp hpu)⟩
    | none =>
        rw [hn] at h
        have h' : units.find?
            (fun u => match u.abbreviation with
              | some a => !(a == "") && (lower a == lower tok)
              | none => false) = some u := h
        have hpu := List.find?_some h'
        exact ⟨List.mem_of_find?_eq_some h',
          Or.inr ((findByAbbr_pred_iff htok u).mp hpu)⟩
  · intro l₁ u l₂ hdec hnm hprev
    have hfind : findByName units tok = some u := by
      rw [hdec]
      exact find?_first _ l₁ u l₂
        (fun v hv => by
          have := hprev v hv
          rw [← findByName_pred_iff htok v] at this
          simpa using this)
        ((findByName_pred_iff htok u).mpr hnm)
    unfold resolve
    rw [hfind]
  · intro hnone l₁ u l₂ hdec ham hprev
    have hfn : findByName units tok = none := by
      apply List.find?_eq_none.mpr
      intro v hv
      rw [findByName_pred_iff htok v]
      exact hnone v hv
    have hfa : findByAbbr units tok = some u := by
      rw [hdec]
      exact find?_first _ l₁ u l₂
        (fun v hv => by
          have := hprev v hv
          rw [← findByAbbr_pred_iff htok v] at this
          simpa using this)
        ((findByAbbr_pred_iff htok u).mpr ham)
    unfold resolve
    rw [hfn, hfa]
  · intro hnone
    have hfn : findByName units tok = none := by
      apply List.find?_eq_none.mpr
      intro v hv
      rw [findByName_pred_iff htok v]
      exact (hnone v hv).1
    have hfa : findByAbbr units tok = none := by
      apply List.find?_eq_none.mpr
      intro v hv
      rw [findByAbbr_pred_iff htok v]
      exact (hnone v hv).2
    unfold resolve
    rw [hfn, hfa]

/-- Witness for C6 at a concrete input: the token `"m3"` matches the second
unit by name (case-insensitively) even though the first unit's abbreviation
also matches. -/
theorem resolve_order_spec_witness :
    resolve [⟨"u1", "kg", some "m3"⟩, ⟨"u2", "M3", none⟩] "m3" =
      some ⟨"u2", "M3", none⟩ :=
  (resolve_order_spec [⟨"u1", "kg", some "m3"⟩, ⟨"u2", "M3", none⟩] "m3"
      (by decide)).2.1
    [⟨"u1", "kg", some "m3"⟩] ⟨"u2", "M3", none⟩ [] rfl
    (by show lower "M3" = lower "m3"; decide)
    (by
      intro v hv
      rw [List.mem_singleton] at hv
      subst hv
      show ¬ lower "kg" = lower "m3"
      decide)

/-- `mkAbbrev` of a non-empty token is non-empty. -/
theorem mkAbbrev_ne_empty {tok : String} (htok : tok ≠ "") : mkAbbrev tok ≠ "" := by
  unfold mkAbbrev
  split
  · exact htok
  · intro hcontra
    rw [str_eq_empty_iff] at hcontra
    simp only [upperPrefix3, List.map_eq_nil_iff, List.take_eq_nil_iff] at hcontra
    rcases hcontra with h | h
    · exact absurd h (by decide)
    · exact htok ((str_eq_empty_iff tok).mpr h)

/-- C7: on a non-empty token with no match, the migration pipeline creates a
unit whose `name` is the token verbatim and whose `abbreviation` is the token
verbatim when its length is ≤ 6, else its first 3 characters upper-cased; the
unit is appended to the in-memory unit list, and a subsequent `resolve` of
the same token in the same run finds it (no duplicate creation). -/
theorem resolveOrCreate_spec (tok : String) (units : List DbUnit) (fresh : Nat)
    (htok : tok ≠ "") (hnone : resolve units tok = none) :
    resolveOrCreate tok units fresh =
      (⟨freshId fresh, tok, some (mkAbbrev tok)⟩,
       units ++ [⟨freshId fresh, tok, some (mkAbbrev tok)⟩], fresh + 1) ∧
    mkAbbrev tok = (if strLen tok ≤ 6 then tok else upperPrefix3 tok) ∧
    resolve (units ++ [⟨freshId fresh, tok, some (mkAbbrev tok)⟩]) tok =
      some ⟨freshId fresh, tok, some (mkAbbrev tok)⟩ := by
  refine ⟨?_, rfl, ?_⟩
  · unfold resolveOrCreate
    rw [hnone]
  · have hfn : findByName (units ++ [⟨freshId fresh, tok, some (mkAbbrev tok)⟩]) tok =
        some ⟨freshId fresh, tok, some (mkAbbrev tok)⟩ := by
      unfold findByName
      rw [show units ++ [(⟨freshId fresh, tok, some (mkAbbrev tok)⟩ : DbUnit)] =
            units ++ (⟨freshId fresh, tok, some (mkAbbrev tok)⟩ : DbUnit) :: [] from rfl]
      apply find?_first
      · intro v hv
        have hv' : ¬ (!(v.name == "") && (lower v.name == lower tok)) = true := by
          have := List.find?_eq_none.mp (findByName_eq_none_of_resolve_eq_none hnone) v hv
          simpa [findByName] using this
        simpa using hv'
      · simp [htok]
    unfold resolve
    rw [hfn]

/-- Witness for C7 at a concrete input: `"Square Meters"` (length 13 > 6)
creates a unit named `"Square Meters"` abbreviated `"SQU"`. -/
theorem resolveOrCreate_spec_witness :
    resolveOrCreate "Square Meters" [] 0 =
      (⟨freshId 0, "Square Meters", some (mkAbbrev "Square Meters")⟩,
       [] ++ [⟨freshId 0, "Square Meters", some (mkAbbrev "Square Meters")⟩], 0 + 1) ∧
    mkAbbrev "Square Meters" =
      (if strLen "Square Meters" ≤ 6 then "Square Meters"
       else upperPrefix3 "Square Meters") ∧
    resolve ([] ++ [⟨freshId 0, "Square Meters", some (mkAbbrev "Square Meters")⟩])
        "Square Meters" =
      some ⟨freshId 0, "Square Meters", some (mkAbbrev "Square Meters")⟩ :=
  resolveOrCreate_spec "Square Meters" [] 0 (by decide) rfl

/-- Sanity: the two creation-rule examples from the spec. -/
example : mkAbbrev "Square Meters" = "SQU" := by decide
example : mkAbbrev "No." = "No." := by decide

/-- C1 counterexample: for an item whose `unit_id` resolves against the
company's unit list while `unit_name` is also present, the viewer displays
the resolved unit's abbreviation (`"KG"`), but the PDF generator computes
`unit_of_measure = it.unit_name || it.unit || 'Item'` = `"pound"` and passes
the cached `unit_abbreviation || ''` = `""` — so the PDF row nowhere carries
step 1's result, refuting the claim that the PDF generator follows the
same precedence. -/
theorem pdf_unit_precedence_cex :
    viewerUnitDisplay [⟨"u1", "Kilogram", some "KG"⟩]
        ⟨none, none, none, none, none, some "pound", some "u1", none⟩ = "KG" ∧
    pdfUnitOfMeasure ⟨none, none, none, none, none, some "pound", some "u1", none⟩
        = "pound" ∧
    pdfUnitAbbreviation ⟨none, none, none, none, none, some "pound", some "u1", none⟩
        = "" ∧
    ("pound" : String) ≠ "KG" ∧ ("" : String) ≠ "KG" := by
  refine ⟨by decide, by decide, by decide, by decide, by decide⟩

/-- C1 amended: the viewer follows the four-step precedence exactly
(`unit_id` resolved against the company's current unit list wins over
`unit_name`/`unit`, placeholder `'-'`); the PDF generator does not consult
`unit_id` or any unit list at all — its display unit is
`unit_name` verbatim, else legacy `unit` verbatim, else `'Item'`, with the
cached `unit_abbreviation` (or `''`) passed alongside. ("Set" is modelled as
JS-truthiness: present and non-empty.) -/
theorem render_unit_precedence (units : List DbUnit) (it : Item) :
    (∀ u, truthyS it.unit_id = true → findById units (strVal it.unit_id) = some u →
        viewerUnitDisplay units it = abbrOrName u) ∧
    ((truthyS it.unit_id = false ∨ findById units (strVal it.unit_id) = none) →
        truthyS it.unit_name = true →
        viewerUnitDisplay units it = strVal it.unit_name) ∧
    ((truthyS it.unit_id = false ∨ findById units (strVal it.unit_id) = none) →
        truthyS it.unit_name = false → truthyS it.unit = true →
        viewerUnitDisplay units it = strVal it.unit) ∧
    ((truthyS it.unit_id = false ∨ findById units (strVal it.unit_id) = none) →
        truthyS it.unit_name = false → truthyS it.unit = false →
        viewerUnitDisplay units it = "-") ∧
    (truthyS it.unit_name = true → pdfUnitOfMeasure it = strVal it.unit_name) ∧
    (truthyS it.unit_name = false → truthyS it.unit = true →
        pdfUnitOfMeasure it = strVal it.unit) ∧
    (truthyS it.unit_name = false → truthyS it.unit = false →
        pdfUnitOfMeasure it = "Item") ∧
    pdfUnitAbbreviation it = strVal it.unit_abbreviation := by
  refine ⟨?_, ?_, ?_, ?_, ?_, ?_, ?_, rfl⟩
  · intro u hid hfind
    simp [viewerUnitDisplay, hid, hfind]
  · rintro (hid | hfind) hnm
    · simp [viewerUnitDisplay, hid, hnm]
    · by_cases hid : truthyS it.unit_id
      · simp [viewerUnitDisplay, hid, hfind, hnm]
      · simp [viewerUnitDisplay, hid, hnm]
  · rintro (hid | hfind) hnm hu
    · simp [viewerUnitDisplay, hid, hnm, hu]
    · by_cases hid : truthyS it.unit_id
      · simp [viewerUnitDisplay, hid, hfind, hnm, hu]
      · simp [viewerUnitDisplay, hid, hnm, hu]
  · rintro (hid | hfind) hnm hu
    · simp [viewerUnitDisplay, hid, hnm, hu]
    · by_cases hid : truthyS it.unit_id
      · simp [viewerUnitDisplay, hid, hfind, hnm, hu]
      · simp [viewerUnitDisplay, hid, hnm, hu]
  · intro hnm; simp [pdfUnitOfMeasure, hnm]
  · intro hnm hu; simp [pdfUnitOfMeasure, hnm, hu]
  · intro hnm hu; simp [pdfUnitOfMeasure, hnm, hu]

/-- Witness for the C1 amended theorem at a concrete input: an item whose
`unit_id` resolves, with a legacy `unit_name` also present — the viewer shows
the resolved abbreviation, the PDF shows the legacy name. -/
theorem render_unit_precedence_witness :
    viewerUnitDisplay [⟨"u7", "Tonne", some "t"⟩]
        ⟨none, none, none, none, some "tn", some "Tonne", some "u7", some "t"⟩
      = abbrOrName ⟨"u7", "Tonne", some "t"⟩ ∧
    pdfUnitOfMeasure
        ⟨none, none, none, none, some "tn", some "Tonne", some "u7", some "t"⟩
      = strVal (some "Tonne") := by
  have h := render_unit_precedence [⟨"u7", "Tonne", some "t"⟩]
    ⟨none, none, none, none, some "tn", some "Tonne", some "u7", some "t"⟩
  exact ⟨h.1 ⟨"u7", "Tonne", some "t"⟩ (by decide) (by decide),
         h.2.2.2.2.1 (by decide)⟩

/-- C5 counterexample: running the Migration Pipeline on the spec's
end-to-end item `{description:"Excavation", quantity:10, rate:1500, unit:"m3"}`
(company with no units) and then Cleanup deletes BOTH `unit` and `unit_name`
(the cleanup branch is `delete item.unit; delete item.unit_name`), whereas
the claim says `unit_name` remains. -/
theorem end_to_end_cleanup_cex :
    (cleanupItem (migrateItem [] 0
        ⟨some "Excavation", some 10, some 1500, none, some "m3", none, none, none⟩).1).unit_name
      = none ∧
    (migrateItem [] 0
        ⟨some "Excavation", some 10, some 1500, none, some "m3", none, none, none⟩).1.unit_name
      = some "m3" := by
  refine ⟨by decide, by decide⟩

/-- C5 amended: for the end-to-end scenario item in a company with no units,
the Migration Pipeline creates a unit named `"m3"` abbreviated `"m3"`
(token length 2 ≤ 6, so the abbreviation is the token verbatim) and writes
`unit_id`, `unit_name:"m3"`, `unit_abbreviation:"m3"` onto the item; the
Normalization Runner then changes nothing; Cleanup then removes both legacy
fields `unit` AND `unit_name`, preserving `unit_id`, `unit_abbreviation`,
`description`, `quantity` and `rate`. -/
theorem end_to_end_scenario :
    migrateItem [] 0
        ⟨some "Excavation", some 10, some 1500, none, some "m3", none, none, none⟩ =
      (⟨some "Excavation", some 10, some 1500, none, some "m3", some "m3",
          some (freshId 0), some "m3"⟩,
       [⟨freshId 0, "m3", some "m3"⟩], 1) ∧
    normalizeItem [⟨freshId 0, "m3", some "m3"⟩]
        ⟨some "Excavation", some 10, some 1500, none, some "m3", some "m3",
          some (freshId 0), some "m3"⟩ =
      ⟨some "Excavation", some 10, some 1500, none, some "m3", some "m3",
          some (freshId 0), some "m3"⟩ ∧
    cleanupItem
        ⟨some "Excavation", some 10, some 1500, none, some "m3", some "m3",
          some (freshId 0), some "m3"⟩ =
      ⟨some "Excavation", some 10, some 1500, none, none, none,
          some (freshId 0), some "m3"⟩ := by
  refine ⟨by decide, by decide, by decide⟩


/-! ## Lemmas for the Normalization Runner (C2) -/

/-- `truthyS` on a present value. -/
theorem truthyS_some (s : String) : truthyS (some s) = !(s == "") := rfl

/-- `abbrOrName` is non-empty whenever the unit's name is. -/
theorem abbrOrName_ne_of_name {u : DbUnit} (hn : u.name ≠ "") : abbrOrName u ≠ "" := by
  unfold abbrOrName
  cases h : u.abbreviation with
  | none => exact hn
  | some a =>
      by_cases ha : a == ""
      · simp [ha, hn]
      · simp [ha]; simpa using ha

/-- `abbrOrName` is non-empty whenever the unit has a non-empty abbreviation. -/
theorem abbrOrName_ne_of_abbr {u : DbUnit} {a : String} (ha : u.abbreviation = some a)
    (hne : a ≠ "") : abbrOrName u ≠ "" := by
  unfold abbrOrName
  rw [ha]
  simp [hne]

/-- The normalization runner's per-item step is idempotent: a second
application (against the same unit list) changes nothing. -/
theorem normalizeItem_idem (units : List DbUnit) (it : Item) :
    normalizeItem units (normalizeItem units it) = normalizeItem units it := by
  obtain ⟨d, q, r, lt, un, unm, uid, uab⟩ := it
  cases h0 : truthyS uab with
  | true =>
      have hin : normalizeItem units ⟨d, q, r, lt, un, unm, uid, uab⟩ = ⟨d, q, r, lt, un, unm, uid, uab⟩ := by
        simp [normalizeItem, h0]
      rw [hin]; exact hin
  | false =>
      cases h1 : truthyS uid with
      | true =>
          cases hf : findById units (strVal uid) with
          | none =>
              have hin : normalizeItem units ⟨d, q, r, lt, un, unm, uid, uab⟩ = ⟨d, q, r, lt, un, unm, uid, uab⟩ := by
                simp [normalizeItem, h0, h1, hf]
              rw [hin]; exact hin
          | some u =>
              have hin : normalizeItem units ⟨d, q, r, lt, un, unm, uid, uab⟩ =
                  ⟨d, q, r, lt, un, some u.name, uid, some (abbrOrName u)⟩ := by
                simp [normalizeItem, h0, h1, hf]
              rw [hin]
              cases habb : (abbrOrName u == "") with
              | false => simp [normalizeItem, truthyS_some, habb]
              | true => simp [normalizeItem, truthyS_some, habb, h1, hf]
      | false =>
          cases h2 : truthyS unm with
          | true =>
              cases hf : findByName units (strVal unm) with
              | none =>
                  have hin : normalizeItem units ⟨d, q, r, lt, un, unm, uid, uab⟩ = ⟨d, q, r, lt, un, unm, uid, uab⟩ := by
                    simp [normalizeItem, h0, h1, h2, hf]
                  rw [hin]; exact hin
              | some u =>
                  have hname : u.name ≠ "" := by
                    have hf2 : units.find? (fun u => !(u.name == "") && (lower u.name == lower (strVal unm))) = some u := hf
                    have hp := List.find?_some hf2
                    simp only [Bool.and_eq_true, Bool.not_eq_true', beq_eq_false_iff_ne] at hp
                    exact hp.1
                  have habb := abbrOrName_ne_of_name hname
                  have hin : normalizeItem units ⟨d, q, r, lt, un, unm, uid, uab⟩ =
                      ⟨d, q, r, lt, un, unm, some u.id, some (abbrOrName u)⟩ := by
                    simp [normalizeItem, h0, h1, h2, hf]
                  rw [hin]
                  simp [normalizeItem, truthyS_some, habb]
          | false =>
              cases h3 : truthyS un with
              | true =>
                  cases hf : (units.find? (fun u =>
                      (!(u.name == "") && lower u.name == lower (strVal un)) ||
                      (match u.abbreviation with
                       | some a => !(a == "") && lower a == lower (strVal un)
                       | none => false))) with
                  | none =>
                      have hin : normalizeItem units ⟨d, q, r, lt, un, unm, uid, uab⟩ = ⟨d, q, r, lt, un, unm, uid, uab⟩ := by
                        simp [normalizeItem, h0, h1, h2, h3, hf]
                      rw [hin]; exact hin
                  | some u =>
                      have habb : abbrOrName u ≠ "" := by
                        have hp := List.find?_some hf
                        simp only [Bool.or_eq_true, Bool.and_eq_true, Bool.not_eq_true',
                          beq_eq_false_iff_ne] at hp
                        rcases hp with hp | hp
                        · exact abbrOrName_ne_of_name hp.1
                        · cases ha : u.abbreviation with
                          | none => rw [ha] at hp; exact absurd hp (by simp)
                          | some a =>
                              rw [ha] at hp
                              simp only [Bool.and_eq_true, Bool.not_eq_true', beq_eq_false_iff_ne,
                                beq_iff_eq] at hp
                              exact abbrOrName_ne_of_abbr ha hp.1
                      have hin : normalizeItem units ⟨d, q, r, lt, un, unm, uid, uab⟩ =
                          ⟨d, q, r, lt, un, some u.name, some u.id, some (abbrOrName u)⟩ := by
                        simp [normalizeItem, h0, h1, h2, h3, hf]
                      rw [hin]
                      simp [normalizeItem, truthyS_some, habb]
              | false =>
                  have hin : normalizeItem units ⟨d, q, r, lt, un, unm, uid, uab⟩ = ⟨d, q, r, lt, un, unm, uid, uab⟩ := by
                    simp [normalizeItem, h0, h1, h2, h3]
                  rw [hin]; exact hin

/-- The normalization runner's per-item step never touches legacy `unit`,
never touches the numeric/description fields, and never takes a present
field to absent. -/
theorem normalizeItem_frame (units : List DbUnit) (it : Item) :
    (normalizeItem units it).unit = it.unit ∧
    (normalizeItem units it).description = it.description ∧
    (normalizeItem units it).quantity = it.quantity ∧
    (normalizeItem units it).rate = it.rate ∧
    (normalizeItem units it).line_total = it.line_total ∧
    (it.unit_id.isSome = true → (normalizeItem units it).unit_id.isSome = true) ∧
    (it.unit_name.isSome = true → (normalizeItem units it).unit_name.isSome = true) ∧
    (it.unit_abbreviation.isSome = true →
      (normalizeItem units it).unit_abbreviation.isSome = true) := by
  obtain ⟨d, q, r, lt, un, unm, uid, uab⟩ := it
  unfold normalizeItem
  refine ⟨?_, ?_, ?_, ?_, ?_, ?_, ?_, ?_⟩ <;>
    · intros
      repeat' split
      all_goals (first | rfl | simp_all)

/-- Idempotence of the per-item step lifted to a section's item list. -/
theorem normalizeList_idem (us : List DbUnit) (l : List Item) :
    List.map (normalizeItem us) (List.map (normalizeItem us) l) =
      List.map (normalizeItem us) l := by
  rw [List.map_map]
  exact List.map_congr_left (fun a _ => normalizeItem_idem us a)

/-- Idempotence of the runner on a section. -/
theorem normalizeSec_idem (us : List DbUnit) (s : Sec) :
    normalizeSec us (normalizeSec us s) = normalizeSec us s := by
  obtain ⟨t, its⟩ := s
  cases its with
  | none => rfl
  | some l =>
      simp only [normalizeSec, Option.map_some']
      rw [normalizeList_idem]

/-- Idempotence of the runner on a BOQ. -/
theorem normalizeBoq_idem (us : List DbUnit) (b : Boq) :
    normalizeBoq us (normalizeBoq us b) = normalizeBoq us b := by
  obtain ⟨i, n, cid, secs⟩ := b
  cases secs with
  | none => rfl
  | some l =>
      simp only [normalizeBoq, Option.map_some']
      rw [List.map_map]
      congr 2
      exact List.map_congr_left (fun s _ => normalizeSec_idem us s)

/-- Idempotence of the runner on a company. -/
theorem normalizeCompany_idem (c : Company) :
    normalizeCompany (normalizeCompany c) = normalizeCompany c := by
  obtain ⟨us, bs⟩ := c
  simp only [normalizeCompany]
  rw [List.map_map]
  congr 1
  exact List.map_congr_left (fun b _ => normalizeBoq_idem us b)

/-- Idempotence of a whole Normalization Runner run. -/
theorem runNormalize_idem (cs : List Company) :
    runNormalize (runNormalize cs) = runNormalize cs := by
  unfold runNormalize
  rw [List.map_map]
  exact List.map_congr_left (fun c _ => normalizeCompany_idem c)

/-- C2 counterexample: on the item `{unit:"m3"}` with the company unit list
`[{id:"u1", name:"m3"}]`, the runner reaches in one step a fixed point that
still carries legacy `unit` (and a freshly SET `unit_name`), so repeated
runs stay at a state in which `unit`/`unit_name` are present — never at the
§3 fully-normalized state that requires them absent. -/
theorem normalize_full_state_cex :
    normalizeItem [⟨"u1", "m3", none⟩]
        ⟨none, none, none, none, some "m3", none, none, none⟩ =
      ⟨none, none, none, none, some "m3", some "m3", some "u1", some "m3"⟩ ∧
    normalizeItem [⟨"u1", "m3", none⟩]
        ⟨none, none, none, none, some "m3", some "m3", some "u1", some "m3"⟩ =
      ⟨none, none, none, none, some "m3", some "m3", some "u1", some "m3"⟩ ∧
    (⟨none, none, none, none, some "m3", some "m3", some "u1", some "m3"⟩ : Item).unit
      ≠ none := by
  refine ⟨by decide, by decide, by decide⟩

/-- C2 amended: the runner's per-item transformation is idempotent and
monotone — a second application changes nothing, whole runs are idempotent,
no unit field is ever taken from present to absent (legacy `unit` is never
touched at all), and no run changes any company's unit table (the runner
never creates a unit). Convergence is to this fixed point, in which
`unit_abbreviation` is filled where resolvable but the legacy fields
remain (removal is Cleanup's job, not the runner's). -/
theorem normalize_idempotent_monotone (units : List DbUnit) (it : Item)
    (cs : List Company) :
    normalizeItem units (normalizeItem units it) = normalizeItem units it ∧
    (it.unit_id.isSome = true → (normalizeItem units it).unit_id.isSome = true) ∧
    (it.unit_name.isSome = true → (normalizeItem units it).unit_name.isSome = true) ∧
    (it.unit_abbreviation.isSome = true →
        (normalizeItem units it).unit_abbreviation.isSome = true) ∧
    (normalizeItem units it).unit = it.unit ∧
    runNormalize (runNormalize cs) = runNormalize cs ∧
    (runNormalize cs).map Company.units = cs.map Company.units := by
  have hf := normalizeItem_frame units it
  refine ⟨normalizeItem_idem units it, hf.2.2.2.2.2.1, hf.2.2.2.2.2.2.1,
    hf.2.2.2.2.2.2.2, hf.1, runNormalize_idem cs, ?_⟩
  unfold runNormalize
  rw [List.map_map]
  exact List.map_congr_left (fun c _ => rfl)

/-- Witness for the C2 amended theorem at a concrete input. -/
theorem normalize_idempotent_monotone_witness :
    (normalizeItem [⟨"u1", "m3", some "M3"⟩]
        ⟨none, none, none, none, none, none, some "u1", none⟩).unit_id.isSome = true ∧
    (normalizeItem [⟨"u1", "m3", some "M3"⟩]
        ⟨none, none, none, none, none, none, some "u1", none⟩).unit = none := by
  have h := normalize_idempotent_monotone [⟨"u1", "m3", some "M3"⟩]
    ⟨none, none, none, none, none, none, some "u1", none⟩ []
  exact ⟨h.2.1 (by decide), h.2.2.2.2.1⟩

/-- C4: cleanup postcondition and frame, with "set" read as JS-truthiness
(the tests the code performs): an item whose `unit_id` is set ends with
neither a (truthy) `unit` nor a (truthy) `unit_name`; an item whose
`unit_id` is not set is returned entirely unchanged; and no field other
than `unit`/`unit_name` is ever modified. -/
theorem cleanup_spec (it : Item) :
    (truthyS it.unit_id = true →
        truthyS (cleanupItem it).unit = false ∧
        truthyS (cleanupItem it).unit_name = false) ∧
    (truthyS it.unit_id = false → cleanupItem it = it) ∧
    (cleanupItem it).unit_id = it.unit_id ∧
    (cleanupItem it).unit_abbreviation = it.unit_abbreviation ∧
    (cleanupItem it).description = it.description ∧
    (cleanupItem it).quantity = it.quantity ∧
    (cleanupItem it).rate = it.rate ∧
    (cleanupItem it).line_total = it.line_total := by
  obtain ⟨d, q, r, lt, un, unm, uid, uab⟩ := it
  unfold cleanupItem
  refine ⟨?_, ?_, ?_, ?_, ?_, ?_, ?_, ?_⟩ <;>
    · intros
      repeat' split
      all_goals (first | rfl | simp_all [truthyS])

/-- Witness for C4 at concrete inputs: a fully-populated migrated item loses
its legacy fields; an item without `unit_id` is untouched. -/
theorem cleanup_spec_witness :
    truthyS (cleanupItem
        ⟨some "d", some 1, some 2, none, some "kg", some "Kilogram", some "u1", some "KG"⟩).unit
      = false ∧
    truthyS (cleanupItem
        ⟨some "d", some 1, some 2, none, some "kg", some "Kilogram", some "u1", some "KG"⟩).unit_name
      = false ∧
    cleanupItem ⟨none, none, none, none, some "kg", none, none, none⟩ =
      ⟨none, none, none, none, some "kg", none, none, none⟩ := by
  have h1 := cleanup_spec
    ⟨some "d", some 1, some 2, none, some "kg", some "Kilogram", some "u1", some "KG"⟩
  have h2 := cleanup_spec ⟨none, none, none, none, some "kg", none, none, none⟩
  exact ⟨(h1.1 (by decide)).1, (h1.1 (by decide)).2, h2.2.1 (by decide)⟩


/-! ## Lemmas for the Migration Pipeline (C3) -/

/-- Well-formed unit table: every id is non-empty (DB ids are UUIDs). -/
def WFU (us : List DbUnit) : Prop := ∀ u ∈ us, u.id ≠ ""

/-- Generated ids are non-empty. -/
theorem freshId_ne_empty (n : Nat) : freshId n ≠ "" := by
  intro h
  have h2 := congrArg String.length h
  simp only [freshId] at h2
  rw [String.length_append] at h2
  have h3 : ("u-new-" : String).length = 6 := by decide
  rw [h3] at h2
  simp at h2

/-- A resolved unit comes from the supplied list. -/
theorem resolve_mem {us : List DbUnit} {tok : String} {u : DbUnit}
    (h : resolve us tok = some u) : u ∈ us := by
  unfold resolve at h
  cases hn : findByName us tok with
  | some v =>
      rw [hn] at h
      cases h
      exact List.mem_of_find?_eq_some hn
  | none =>
      rw [hn] at h
      exact List.mem_of_find?_eq_some h

/-- An item the migration step will always skip, for any unit list and
counter: `unit_id` truthy, or no token. -/
def migStable (it : Item) : Prop := truthyS it.unit_id = true ∨ itemToken it = ""

/-- The migration step is the identity on stable items. -/
theorem migrateItem_of_stable {it : Item} (h : migStable it)
    (us : List DbUnit) (f : Nat) : migrateItem us f it = (it, us, f) := by
  rcases h with h | h
  · simp [migrateItem, h]
  · by_cases h1 : truthyS it.unit_id = true
    · simp [migrateItem, h1]
    · simp [migrateItem, h1, h]

/-- Over a well-formed unit table, the migration step outputs a stable item
and preserves well-formedness of the (possibly extended) unit table. -/
theorem migrateItem_spec (us : List DbUnit) (f : Nat) (it : Item) (hwf : WFU us) :
    migStable (migrateItem us f it).1 ∧ WFU (migrateItem us f it).2.1 := by
  by_cases h1 : truthyS it.unit_id = true
  · simp only [migrateItem, h1, if_true]
    exact ⟨Or.inl h1, hwf⟩
  · by_cases h2 : itemToken it = ""
    · simp only [migrateItem, h1, if_false, h2]
      simp only [beq_self_eq_true, if_true]
      exact ⟨Or.inr h2, hwf⟩
    · have h2b : (itemToken it == "") = false := by
        simp [h2]
      cases hr : resolve us (itemToken it) with
      | some u =>
          simp only [migrateItem, h1, if_false, h2b, Bool.false_eq_true, resolveOrCreate, hr]
          refine ⟨Or.inl ?_, hwf⟩
          have := hwf u (resolve_mem hr)
          simp [truthyS_some, this]
      | none =>
          simp only [migrateItem, h1, if_false, h2b, Bool.false_eq_true, resolveOrCreate, hr]
          constructor
          · refine Or.inl ?_
            simp [truthyS_some, freshId_ne_empty f]
          · intro u hu
            rw [List.mem_append] at hu
            rcases hu with hu | hu
            · exact hwf u hu
            · rw [List.mem_singleton] at hu
              rw [hu]
              exact freshId_ne_empty f

/-- The migration item loop is the identity on lists of stable items. -/
theorem migrateItems_of_stable {its : List Item} (h : ∀ it ∈ its, migStable it) :
    ∀ us f, migrateItems us f its = (its, us, f) := by
  induction its with
  | nil => intro us f; rfl
  | cons it rest ih =>
      intro us f
      have h1 := migrateItem_of_stable (h it (by simp)) us f
      simp only [migrateItems, h1]
      rw [ih (fun x hx => h x (by simp [hx])) us f]

/-- Over a well-formed unit table, the migration item loop outputs stable
items and a well-formed unit table. -/
theorem migrateItems_spec :
    ∀ (its : List Item) (us : List DbUnit) (f : Nat), WFU us →
      (∀ it2 ∈ (migrateItems us f its).1, migStable it2) ∧
      WFU (migrateItems us f its).2.1 := by
  intro its
  induction its with
  | nil =>
      intro us f hwf
      exact ⟨by simp [migrateItems], by simpa [migrateItems] using hwf⟩
  | cons it rest ih =>
      intro us f hwf
      have hspec := migrateItem_spec us f it hwf
      rcases hmi : migrateItem us f it with ⟨it1, us1, f1⟩
      rw [hmi] at hspec
      have ihr := ih us1 f1 hspec.2
      rcases hrec : migrateItems us1 f1 rest with ⟨rest1, us2, f2⟩
      rw [hrec] at ihr
      constructor
      · intro x hx
        simp only [migrateItems, hmi, hrec, List.mem_cons] at hx
        rcases hx with rfl | hx
        · exact hspec.1
        · exact ihr.1 x hx
      · simp only [migrateItems, hmi, hrec]
        exact ihr.2

/-- A section all of whose items the migration step will skip. -/
def secStable (s : Sec) : Prop := ∀ its, s.items = some its → ∀ it ∈ its, migStable it

/-- The migration is the identity on stable sections. -/
theorem migrateSec_of_stable {s : Sec} (h : secStable s) (us : List DbUnit) (f : Nat) :
    migrateSec us f s = (s, us, f) := by
  obtain ⟨t, itsf⟩ := s
  cases itsf with
  | none => rfl
  | some its =>
      simp only [migrateSec]
      rw [migrateItems_of_stable (h its rfl) us f]

/-- Over a well-formed unit table, migrating a section yields a stable
section and a well-formed unit table. -/
theorem migrateSec_spec (us : List DbUnit) (f : Nat) (s : Sec) (hwf : WFU us) :
    secStable (migrateSec us f s).1 ∧ WFU (migrateSec us f s).2.1 := by
  obtain ⟨t, itsf⟩ := s
  cases itsf with
  | none =>
      refine ⟨?_, hwf⟩
      intro its h
      simp [migrateSec] at h
  | some its =>
      have h := migrateItems_spec its us f hwf
      rcases hmi : migrateItems us f its with ⟨its1, us1, f1⟩
      rw [hmi] at h
      constructor
      · intro l hl
        simp only [migrateSec, hmi, Option.some.injEq] at hl
        rw [← hl]
        exact h.1
      · simp only [migrateSec, hmi]
        exact h.2

/-- The migration section loop is the identity on stable sections. -/
theorem migrateSecs_of_stable {secs : List Sec} (h : ∀ s ∈ secs, secStable s) :
    ∀ us f, migrateSecs us f secs = (secs, us, f) := by
  induction secs with
  | nil => intro us f; rfl
  | cons s rest ih =>
      intro us f
      have h1 := migrateSec_of_stable (h s (by simp)) us f
      simp only [migrateSecs, h1]
      rw [ih (fun x hx => h x (by simp [hx])) us f]

/-- Over a well-formed unit table, the section loop yields stable sections
and a well-formed unit table. -/
theorem migrateSecs_spec :
    ∀ (secs : List Sec) (us : List DbUnit) (f : Nat), WFU us →
      (∀ s ∈ (migrateSecs us f secs).1, secStable s) ∧
      WFU (migrateSecs us f secs).2.1 := by
  intro secs
  induction secs with
  | nil =>
      intro us f hwf
      exact ⟨by simp [migrateSecs], by simpa [migrateSecs] using hwf⟩
  | cons s rest ih =>
      intro us f hwf
      have hspec := migrateSec_spec us f s hwf
      rcases hms : migrateSec us f s with ⟨s1, us1, f1⟩
      rw [hms] at hspec
      have ihr := ih us1 f1 hspec.2
      rcases hrec : migrateSecs us1 f1 rest with ⟨rest1, us2, f2⟩
      rw [hrec] at ihr
      constructor
      · intro x hx
        simp only [migrateSecs, hms, hrec, List.mem_cons] at hx
        rcases hx with rfl | hx
        · exact hspec.1
        · exact ihr.1 x hx
      · simp only [migrateSecs, hms, hrec]
        exact ihr.2

/-- A BOQ all of whose items the migration step will skip. -/
def boqStable (b : Boq) : Prop := ∀ secs, b.sections = some secs → ∀ s ∈ secs, secStable s

/-- The migration is the identity on stable BOQs. -/
theorem migrateBoq_of_stable {b : Boq} (h : boqStable b) (us : List DbUnit) (f : Nat) :
    migrateBoq us f b = (b, us, f) := by
  obtain ⟨i, n, cid, secsf⟩ := b
  cases secsf with
  | none => rfl
  | some secs =>
      simp only [migrateBoq]
      rw [migrateSecs_of_stable (h secs rfl) us f]

/-- Over a well-formed unit table, migrating a BOQ yields a stable BOQ and a
well-formed unit table. -/
theorem migrateBoq_spec (us : List DbUnit) (f : Nat) (b : Boq) (hwf : WFU us) :
    boqStable (migrateBoq us f b).1 ∧ WFU (migrateBoq us f b).2.1 := by
  obtain ⟨i, n, cid, secsf⟩ := b
  cases secsf with
  | none =>
      refine ⟨?_, hwf⟩
      intro secs h
      simp [migrateBoq] at h
  | some secs =>
      have h := migrateSecs_spec secs us f hwf
      rcases hms : migrateSecs us f secs with ⟨secs1, us1, f1⟩
      rw [hms] at h
      constructor
      · intro l hl
        simp only [migrateBoq, hms, Option.some.injEq] at hl
        rw [← hl]
        exact h.1
      · simp only [migrateBoq, hms]
        exact h.2

/-- The migration BOQ loop is the identity on stable BOQs. -/
theorem migrateBoqs_of_stable {bs : List Boq} (h : ∀ b ∈ bs, boqStable b) :
    ∀ us f, migrateBoqs us f bs = (bs, us, f) := by
  induction bs with
  | nil => intro us f; rfl
  | cons b rest ih =>
      intro us f
      have h1 := migrateBoq_of_stable (h b (by simp)) us f
      simp only [migrateBoqs, h1]
      rw [ih (fun x hx => h x (by simp [hx])) us f]

/-- Over a well-formed unit table, the BOQ loop yields stable BOQs and a
well-formed unit table. -/
theorem migrateBoqs_spec :
    ∀ (bs : List Boq) (us : List DbUnit) (f : Nat), WFU us →
      (∀ b ∈ (migrateBoqs us f bs).1, boqStable b) ∧
      WFU (migrateBoqs us f bs).2.1 := by
  intro bs
  induction bs with
  | nil =>
      intro us f hwf
      exact ⟨by simp [migrateBoqs], by simpa [migrateBoqs] using hwf⟩
  | cons b rest ih =>
      intro us f hwf
      have hspec := migrateBoq_spec us f b hwf
      rcases hmb : migrateBoq us f b with ⟨b1, us1, f1⟩
      rw [hmb] at hspec
      have ihr := ih us1 f1 hspec.2
      rcases hrec : migrateBoqs us1 f1 rest with ⟨rest1, us2, f2⟩
      rw [hrec] at ihr
      constructor
      · intro x hx
        simp only [migrateBoqs, hmb, hrec, List.mem_cons] at hx
        rcases hx with rfl | hx
        · exact hspec.1
        · exact ihr.1 x hx
      · simp only [migrateBoqs, hmb, hrec]
        exact ihr.2

/-- The migration is the identity (with the counter passed through) on a
company all of whose BOQs are stable. -/
theorem migrateCompany_of_stable {c : Company} (h : ∀ b ∈ c.boqs, boqStable b)
    (g : Nat) : migrateCompany g c = (c, g) := by
  obtain ⟨us, bs⟩ := c
  simp only [migrateCompany]
  rw [migrateBoqs_of_stable h us g]

/-- Over a well-formed unit table, migrating a company yields only stable
BOQs. -/
theorem migrateCompany_spec (f : Nat) (c : Company) (hwf : WFU c.units) :
    ∀ b ∈ (migrateCompany f c).1.boqs, boqStable b := by
  obtain ⟨us, bs⟩ := c
  have h := migrateBoqs_spec bs us f hwf
  rcases hmb : migrateBoqs us f bs with ⟨bs1, us1, f1⟩
  rw [hmb] at h
  simp only [migrateCompany, hmb]
  exact h.1

/-- A second pass of the company loop over the output of a first pass (from
well-formed unit tables) changes nothing, for any starting counter. -/
theorem migrateCompanies_idem :
    ∀ (cs : List Company) (n g : Nat), (∀ c ∈ cs, WFU c.units) →
      migrateCompanies g (migrateCompanies n cs) = migrateCompanies n cs := by
  intro cs
  induction cs with
  | nil => intro n g _; rfl
  | cons c rest ih =>
      intro n g hwf
      rcases hmc : migrateCompany n c with ⟨c1, n1⟩
      have hstab : ∀ b ∈ c1.boqs, boqStable b := by
        have h := migrateCompany_spec n c (hwf c (by simp))
        rw [hmc] at h
        exact h
      have h2 := migrateCompany_of_stable hstab g
      rw [show migrateCompanies n (c :: rest) = c1 :: migrateCompanies n1 rest by
        simp only [migrateCompanies, hmc]]
      rw [show migrateCompanies g (c1 :: migrateCompanies n1 rest) =
            c1 :: migrateCompanies g (migrateCompanies n1 rest) by
        simp only [migrateCompanies, h2]]
      rw [ih n1 g (fun x hx => hwf x (by simp [hx]))]

/-- C3: the Migration Pipeline is idempotent. For every store whose unit
tables are well-formed (every unit id non-empty, as the DB's UUID primary
key guarantees), running the pipeline twice yields exactly the same unit
tables and BOQ documents as running it once: in the second run every item
is skipped (it either gained a truthy `unit_id` in the first run or has no
token), so no unit is created and no item is rewritten. -/
theorem migrate_idempotent (cs : List Company) (hwf : ∀ c ∈ cs, WFU c.units) :
    runMigration (runMigration cs) = runMigration cs :=
  migrateCompanies_idem cs 0 0 hwf

/-- Witness for C3 at a concrete store: one company with one unit and a BOQ
whose three items cover the match, create and no-token cases. -/
theorem migrate_idempotent_witness :
    runMigration (runMigration
      [⟨[⟨"u1", "kg", some "KG"⟩],
        [⟨"b1", "BOQ-1", "c1", some [⟨some "T", some
          [⟨some "a", some 1, some 2, none, some "KG", none, none, none⟩,
           ⟨some "b", some 1, some 2, none, none, some "tonne", none, none⟩,
           ⟨some "c", some 1, some 2, none, none, none, none, none⟩]⟩]⟩]⟩]) =
    runMigration
      [⟨[⟨"u1", "kg", some "KG"⟩],
        [⟨"b1", "BOQ-1", "c1", some [⟨some "T", some
          [⟨some "a", some 1, some 2, none, some "KG", none, none, none⟩,
           ⟨some "b", some 1, some 2, none, none, some "tonne", none, none⟩,
           ⟨some "c", some 1, some 2, none, none, none, none, none⟩]⟩]⟩]⟩] :=
  migrate_idempotent _ (by
    intro c hc
    rw [List.mem_singleton] at hc
    subst hc
    intro u hu
    rw [List.mem_singleton] at hu
    subst hu
    decide)


/-! ## Lemmas for company isolation (C9) and null-entry behavior (C10) -/

/-- The items of a section (empty when the items field is missing). -/
def secItems (s : Sec) : List Item := s.items.getD []

/-- The items of a list of sections. -/
def listItems (l : List Sec) : List Item := l.flatMap secItems

/-- The items of a BOQ. -/
def boqItems (b : Boq) : List Item := listItems (b.sections.getD [])

/-- All items of all of a company's BOQs. -/
def companyItems (c : Company) : List Item := c.boqs.flatMap boqItems

/-- The migration step only ever appends to the unit table. -/
theorem migrateItem_units_ext (us : List DbUnit) (f : Nat) (it : Item) :
    ∃ ext, (migrateItem us f it).2.1 = us ++ ext := by
  by_cases h1 : truthyS it.unit_id = true
  · exact ⟨[], by simp [migrateItem, h1]⟩
  · by_cases h2 : itemToken it = ""
    · exact ⟨[], by simp [migrateItem, h1, h2]⟩
    · have h2b : (itemToken it == "") = false := by simp [h2]
      cases hr : resolve us (itemToken it) with
      | some u =>
          exact ⟨[], by simp [migrateItem, h1, h2b, resolveOrCreate, hr]⟩
      | none =>
          exact ⟨[⟨freshId f, itemToken it, some (mkAbbrev (itemToken it))⟩],
            by simp [migrateItem, h1, h2b, resolveOrCreate, hr]⟩

/-- The migration step either leaves the item untouched or writes onto it a
`unit_id` taken from the resulting unit table of the same company. -/
theorem migrateItem_isolation (us : List DbUnit) (f : Nat) (it : Item) :
    (migrateItem us f it).1 = it ∨
    ∃ u ∈ (migrateItem us f it).2.1, (migrateItem us f it).1.unit_id = some u.id := by
  by_cases h1 : truthyS it.unit_id = true
  · exact Or.inl (by simp [migrateItem, h1])
  · by_cases h2 : itemToken it = ""
    · exact Or.inl (by simp [migrateItem, h1, h2])
    · have h2b : (itemToken it == "") = false := by simp [h2]
      cases hr : resolve us (itemToken it) with
      | some u =>
          refine Or.inr ⟨u, ?_, ?_⟩
          · simp only [migrateItem, h1, if_false, h2b, Bool.false_eq_true,
              resolveOrCreate, hr]
            exact resolve_mem hr
          · simp [migrateItem, h1, h2b, resolveOrCreate, hr]
      | none =>
          refine Or.inr ⟨⟨freshId f, itemToken it, some (mkAbbrev (itemToken it))⟩, ?_, ?_⟩
          · simp [migrateItem, h1, h2b, resolveOrCreate, hr]
          · simp [migrateItem, h1, h2b, resolveOrCreate, hr]

/-- The migration item loop only ever appends to the unit table. -/
theorem migrateItems_units_ext :
    ∀ (its : List Item) (us : List DbUnit) (f : Nat),
      ∃ ext, (migrateItems us f its).2.1 = us ++ ext := by
  intro its
  induction its with
  | nil => intro us f; exact ⟨[], by simp [migrateItems]⟩
  | cons it rest ih =>
      intro us f
      rcases hmi : migrateItem us f it with ⟨it1, us1, f1⟩
      obtain ⟨e1, he1⟩ := migrateItem_units_ext us f it
      rw [hmi] at he1
      simp only at he1
      obtain ⟨e2, he2⟩ := ih us1 f1
      rcases hrec : migrateItems us1 f1 rest with ⟨rest1, us2, f2⟩
      rw [hrec] at he2
      simp only at he2
      refine ⟨e1 ++ e2, ?_⟩
      simp only [migrateItems, hmi, hrec]
      rw [he2, he1, List.append_assoc]

/-- Isolation through the migration item loop: each output item is an input
item or carries a `unit_id` from the resulting unit table. -/
theorem migrateItems_isolation :
    ∀ (its : List Item) (us : List DbUnit) (f : Nat),
      ∀ x ∈ (migrateItems us f its).1,
        x ∈ its ∨ ∃ u ∈ (migrateItems us f its).2.1, x.unit_id = some u.id := by
  intro its
  induction its with
  | nil => intro us f x hx; simp [migrateItems] at hx
  | cons it rest ih =>
      intro us f x hx
      rcases hmi : migrateItem us f it with ⟨it1, us1, f1⟩
      rcases hrec : migrateItems us1 f1 rest with ⟨rest1, us2, f2⟩
      obtain ⟨e2, he2⟩ := migrateItems_units_ext rest us1 f1
      rw [hrec] at he2
      simp only at he2
      simp only [migrateItems, hmi, hrec, List.mem_cons] at hx
      simp only [migrateItems, hmi, hrec]
      rcases hx with rfl | hx
      · have hiso := migrateItem_isolation us f it
        rw [hmi] at hiso
        simp only at hiso
        rcases hiso with heq | ⟨u, hu, hid⟩
        · exact Or.inl (by rw [heq]; simp)
        · refine Or.inr ⟨u, ?_, hid⟩
          rw [he2]
          exact List.mem_append_left _ hu
      · have hrest := ih us1 f1 x (by rw [hrec]; exact hx)
        rw [hrec] at hrest
        simp only at hrest
        rcases hrest with h | ⟨u, hu, hid⟩
        · exact Or.inl (List.mem_cons_of_mem _ h)
        · exact Or.inr ⟨u, hu, hid⟩

/-- Migrating a section only ever appends to the unit table. -/
theorem migrateSec_units_ext (us : List DbUnit) (f : Nat) (s : Sec) :
    ∃ ext, (migrateSec us f s).2.1 = us ++ ext := by
  obtain ⟨t, itsf⟩ := s
  cases itsf with
  | none => exact ⟨[], by simp [migrateSec]⟩
  | some its =>
      obtain ⟨e, he⟩ := migrateItems_units_ext its us f
      rcases hmi : migrateItems us f its with ⟨its1, us1, f1⟩
      rw [hmi] at he
      exact ⟨e, by simp only [migrateSec, hmi]; exact he⟩

/-- Isolation through migrating one section. -/
theorem migrateSec_isolation (us : List DbUnit) (f : Nat) (s : Sec) :
    ∀ x ∈ secItems (migrateSec us f s).1,
      x ∈ secItems s ∨ ∃ u ∈ (migrateSec us f s).2.1, x.unit_id = some u.id := by
  obtain ⟨t, itsf⟩ := s
  cases itsf with
  | none => intro x hx; exact Or.inl hx
  | some its =>
      intro x hx
      rcases hmi : migrateItems us f its with ⟨its1, us1, f1⟩
      simp only [migrateSec, hmi, secItems, Option.getD_some] at hx ⊢
      have h := migrateItems_isolation its us f x (by rw [hmi]; exact hx)
      rw [hmi] at h
      exact h

/-- The migration section loop only ever appends to the unit table. -/
theorem migrateSecs_units_ext :
    ∀ (secs : List Sec) (us : List DbUnit) (f : Nat),
      ∃ ext, (migrateSecs us f secs).2.1 = us ++ ext := by
  intro secs
  induction secs with
  | nil => intro us f; exact ⟨[], by simp [migrateSecs]⟩
  | cons s rest ih =>
      intro us f
      rcases hms : migrateSec us f s with ⟨s1, us1, f1⟩
      obtain ⟨e1, he1⟩ := migrateSec_units_ext us f s
      rw [hms] at he1
      simp only at he1
      obtain ⟨e2, he2⟩ := ih us1 f1
      rcases hrec : migrateSecs us1 f1 rest with ⟨rest1, us2, f2⟩
      rw [hrec] at he2
      simp only at he2
      refine ⟨e1 ++ e2, ?_⟩
      simp only [migrateSecs, hms, hrec]
      rw [he2, he1, List.append_assoc]

/-- Isolation through the migration section loop. -/
theorem migrateSecs_isolation :
    ∀ (secs : List Sec) (us : List DbUnit) (f : Nat),
      ∀ x ∈ listItems (migrateSecs us f secs).1,
        x ∈ listItems secs ∨
        ∃ u ∈ (migrateSecs us f secs).2.1, x.unit_id = some u.id := by
  intro secs
  induction secs with
  | nil => intro us f x hx; simp [migrateSecs, listItems] at hx
  | cons s rest ih =>
      intro us f x hx
      rcases hms : migrateSec us f s with ⟨s1, us1, f1⟩
      rcases hrec : migrateSecs us1 f1 rest with ⟨rest1, us2, f2⟩
      obtain ⟨e2, he2⟩ := migrateSecs_units_ext rest us1 f1
      rw [hrec] at he2
      simp only at he2
      simp only [migrateSecs, hms, hrec] at hx
      simp only [migrateSecs, hms, hrec]
      simp only [listItems, List.flatMap_cons, List.mem_append] at hx
      rcases hx with hx | hx
      · have h := migrateSec_isolation us f s x (by rw [hms]; exact hx)
        rw [hms] at h
        simp only at h
        rcases h with h | ⟨u, hu, hid⟩
        · exact Or.inl (by simp [listItems, List.flatMap_cons, h])
        · refine Or.inr ⟨u, ?_, hid⟩
          rw [he2]
          exact List.mem_append_left _ hu
      · have h := ih us1 f1 x (by rw [hrec]; exact hx)
        rw [hrec] at h
        simp only at h
        rcases h with h | ⟨u, hu, hid⟩
        · exact Or.inl (by simp [listItems, List.flatMap_cons]; right; simpa [listItems] using h)
        · exact Or.inr ⟨u, hu, hid⟩

/-- Migrating a BOQ only ever appends to the unit table. -/
theorem migrateBoq_units_ext (us : List DbUnit) (f : Nat) (b : Boq) :
    ∃ ext, (migrateBoq us f b).2.1 = us ++ ext := by
  obtain ⟨i, n, cid, secsf⟩ := b
  cases secsf with
  | none => exact ⟨[], by simp [migrateBoq]⟩
  | some secs =>
      obtain ⟨e, he⟩ := migrateSecs_units_ext secs us f
      rcases hms : migrateSecs us f secs with ⟨secs1, us1, f1⟩
      rw [hms] at he
      exact ⟨e, by simp only [migrateBoq, hms]; exact he⟩

/-- Isolation through migrating one BOQ. -/
theorem migrateBoq_isolation (us : List DbUnit) (f : Nat) (b : Boq) :
    ∀ x ∈ boqItems (migrateBoq us f b).1,
      x ∈ boqItems b ∨ ∃ u ∈ (migrateBoq us f b).2.1, x.unit_id = some u.id := by
  obtain ⟨i, n, cid, secsf⟩ := b
  cases secsf with
  | none => intro x hx; exact Or.inl hx
  | some secs =>
      intro x hx
      rcases hms : migrateSecs us f secs with ⟨secs1, us1, f1⟩
      simp only [migrateBoq, hms, boqItems, Option.getD_some] at hx ⊢
      have h := migrateSecs_isolation secs us f x (by rw [hms]; exact hx)
      rw [hms] at h
      exact h

/-- The migration BOQ loop only ever appends to the unit table. -/
theorem migrateBoqs_units_ext :
    ∀ (bs : List Boq) (us : List DbUnit) (f : Nat),
      ∃ ext, (migrateBoqs us f bs).2.1 = us ++ ext := by
  intro bs
  induction bs with
  | nil => intro us f; exact ⟨[], by simp [migrateBoqs]⟩
  | cons b rest ih =>
      intro us f
      rcases hmb : migrateBoq us f b with ⟨b1, us1, f1⟩
      obtain ⟨e1, he1⟩ := migrateBoq_units_ext us f b
      rw [hmb] at he1
      simp only at he1
      obtain ⟨e2, he2⟩ := ih us1 f1
      rcases hrec : migrateBoqs us1 f1 rest with ⟨rest1, us2, f2⟩
      rw [hrec] at he2
      simp only at he2
      refine ⟨e1 ++ e2, ?_⟩
      simp only [migrateBoqs, hmb, hrec]
      rw [he2, he1, List.append_assoc]

/-- Isolation through the migration BOQ loop. -/
theorem migrateBoqs_isolation :
    ∀ (bs : List Boq) (us : List DbUnit) (f : Nat),
      ∀ x ∈ (migrateBoqs us f bs).1.flatMap boqItems,
        x ∈ bs.flatMap boqItems ∨
        ∃ u ∈ (migrateBoqs us f bs).2.1, x.unit_id = some u.id := by
  intro bs
  induction bs with
  | nil => intro us f x hx; simp [migrateBoqs] at hx
  | cons b rest ih =>
      intro us f x hx
      rcases hmb : migrateBoq us f b with ⟨b1, us1, f1⟩
      rcases hrec : migrateBoqs us1 f1 rest with ⟨rest1, us2, f2⟩
      obtain ⟨e2, he2⟩ := migrateBoqs_units_ext rest us1 f1
      rw [hrec] at he2
      simp only at he2
      simp only [migrateBoqs, hmb, hrec] at hx
      simp only [migrateBoqs, hmb, hrec]
      simp only [List.flatMap_cons, List.mem_append] at hx
      rcases hx with hx | hx
      · have h := migrateBoq_isolation us f b x (by rw [hmb]; exact hx)
        rw [hmb] at h
        simp only at h
        rcases h with h | ⟨u, hu, hid⟩
        · exact Or.inl (by simp [List.flatMap_cons, h])
        · refine Or.inr ⟨u, ?_, hid⟩
          rw [he2]
          exact List.mem_append_left _ hu
      · have h := ih us1 f1 x (by rw [hrec]; exact hx)
        rw [hrec] at h
        simp only at h
        rcases h with h | ⟨u, hu, hid⟩
        · exact Or.inl (by
            simp only [List.flatMap_cons, List.mem_append]
            right
            exact h)
        · exact Or.inr ⟨u, hu, hid⟩

/-- Isolation through migrating one company: every item of the result is an
original item of the same company or references a unit of that company's
resulting unit table. -/
theorem migrateCompany_isolation (f : Nat) (c : Company) :
    ∀ x ∈ companyItems (migrateCompany f c).1,
      x ∈ companyItems c ∨
      ∃ u ∈ (migrateCompany f c).1.units, x.unit_id = some u.id := by
  obtain ⟨us, bs⟩ := c
  intro x hx
  rcases hmb : migrateBoqs us f bs with ⟨bs1, us1, f1⟩
  simp only [migrateCompany, hmb, companyItems] at hx ⊢
  have h := migrateBoqs_isolation bs us f x (by rw [hmb]; exact hx)
  rw [hmb] at h
  exact h

/-- Isolation for the whole Migration Pipeline run, relating each input
company to its output positionally. -/
theorem migrateCompanies_isolation :
    ∀ (cs : List Company) (n : Nat),
      List.Forall₂ (fun c c' =>
        ∀ x ∈ companyItems c',
          x ∈ companyItems c ∨ ∃ u ∈ c'.units, x.unit_id = some u.id)
        cs (migrateCompanies n cs) := by
  intro cs
  induction cs with
  | nil => intro n; exact List.Forall₂.nil
  | cons c rest ih =>
      intro n
      rcases hmc : migrateCompany n c with ⟨c1, n1⟩
      rw [show migrateCompanies n (c :: rest) = c1 :: migrateCompanies n1 rest by
        simp only [migrateCompanies, hmc]]
      refine List.Forall₂.cons ?_ (ih n1)
      have h := migrateCompany_isolation n c
      rw [hmc] at h
      exact h

/-- The normalization step either leaves the item untouched or leaves it
with a `unit_id` belonging to a unit of the supplied (same-company) list. -/
theorem normalizeItem_isolation (us : List DbUnit) (it : Item) :
    normalizeItem us it = it ∨
    ∃ u ∈ us, (normalizeItem us it).unit_id = some u.id := by
  obtain ⟨d, q, r, lt, un, unm, uid, uab⟩ := it
  cases h0 : truthyS uab with
  | true => exact Or.inl (by simp [normalizeItem, h0])
  | false =>
      cases h1 : truthyS uid with
      | true =>
          cases hf : findById us (strVal uid) with
          | none => exact Or.inl (by simp [normalizeItem, h0, h1, hf])
          | some u =>
              have hf2 : us.find? (fun v => v.id == strVal uid) = some u := hf
              refine Or.inr ⟨u, List.mem_of_find?_eq_some hf2, ?_⟩
              have hp := List.find?_some hf2
              rw [beq_iff_eq] at hp
              cases uid with
              | none => simp [truthyS] at h1
              | some s =>
                  simp only [normalizeItem, h0, h1, hf]
                  simp [strVal] at hp
                  simp [hp]
      | false =>
          cases h2 : truthyS unm with
          | true =>
              cases hf : findByName us (strVal unm) with
              | none => exact Or.inl (by simp [normalizeItem, h0, h1, h2, hf])
              | some u =>
                  refine Or.inr ⟨u, List.mem_of_find?_eq_some hf, ?_⟩
                  simp [normalizeItem, h0, h1, h2, hf]
          | false =>
              cases h3 : truthyS un with
              | true =>
                  cases hf : (us.find? (fun u =>
                      (!(u.name == "") && lower u.name == lower (strVal un)) ||
                      (match u.abbreviation with
                       | some a => !(a == "") && lower a == lower (strVal un)
                       | none => false))) with
                  | none => exact Or.inl (by simp [normalizeItem, h0, h1, h2, h3, hf])
                  | some u =>
                      refine Or.inr ⟨u, List.mem_of_find?_eq_some hf, ?_⟩
                      simp [normalizeItem, h0, h1, h2, h3, hf]
              | false => exact Or.inl (by simp [normalizeItem, h0, h1, h2, h3])

/-- `flatMap` of a composed map. -/
theorem map_flatMap_comp {α β γ : Type} (l : List α) (g : α → β) (h : β → List γ) :
    (l.map g).flatMap h = l.flatMap (fun a => h (g a)) := by
  induction l with
  | nil => rfl
  | cons a t ih => simp only [List.map_cons, List.flatMap_cons, ih]

/-- Mapping after `flatMap` pushes inside. -/
theorem flatMap_map_comm {α β γ : Type} (l : List α) (g : α → List β) (f : β → γ) :
    (l.flatMap g).map f = l.flatMap (fun a => (g a).map f) := by
  induction l with
  | nil => rfl
  | cons a t ih => simp only [List.flatMap_cons, List.map_append, ih]

/-- The runner maps the per-item step over a section's items. -/
theorem secItems_normalize (us : List DbUnit) (s : Sec) :
    secItems (normalizeSec us s) = (secItems s).map (normalizeItem us) := by
  obtain ⟨t, itsf⟩ := s
  cases itsf <;> simp [normalizeSec, secItems]

/-- The runner maps the per-item step over a BOQ's items. -/
theorem boqItems_normalize (us : List DbUnit) (b : Boq) :
    boqItems (normalizeBoq us b) = (boqItems b).map (normalizeItem us) := by
  obtain ⟨i, n, cid, secsf⟩ := b
  cases secsf with
  | none => simp [normalizeBoq, boqItems, listItems]
  | some secs =>
      simp only [normalizeBoq, boqItems, Option.map_some', Option.getD_some, listItems]
      rw [map_flatMap_comp]
      rw [show (fun a => secItems (normalizeSec us a)) =
            (fun a => (secItems a).map (normalizeItem us)) from
          funext (fun a => secItems_normalize us a)]
      rw [← flatMap_map_comm]

/-- The runner maps the per-item step (against the company's own unit list)
over all of a company's items. -/
theorem companyItems_normalize (c : Company) :
    companyItems (normalizeCompany c) =
      (companyItems c).map (normalizeItem c.units) := by
  obtain ⟨us, bs⟩ := c
  simp only [normalizeCompany, companyItems]
  rw [map_flatMap_comp]
  rw [show (fun b => boqItems (normalizeBoq us b)) =
        (fun b => (boqItems b).map (normalizeItem us)) from
      funext (fun b => boqItems_normalize us b)]
  rw [← flatMap_map_comm]

/-- Isolation for the whole Normalization Runner run. -/
theorem runNormalize_isolation (cs : List Company) :
    List.Forall₂ (fun c c' => c'.units = c.units ∧
      ∀ x ∈ companyItems c',
        x ∈ companyItems c ∨ ∃ u ∈ c.units, x.unit_id = some u.id)
      cs (runNormalize cs) := by
  induction cs with
  | nil => exact List.Forall₂.nil
  | cons c rest ih =>
      refine List.Forall₂.cons ⟨rfl, ?_⟩ ih
      intro x hx
      rw [companyItems_normalize] at hx
      rw [List.mem_map] at hx
      obtain ⟨y, hy, rfl⟩ := hx
      rcases normalizeItem_isolation c.units y with heq | ⟨u, hu, hid⟩
      · rw [heq]; exact Or.inl hy
      · exact Or.inr ⟨u, hu, hid⟩

/-- C9: company isolation. Each run processes every company against only
that company's own unit list: relating companies positionally, every item
in a company's output either is one of that company's input items
(untouched) or carries a `unit_id` of a unit in that same company's unit
table (the resulting table for the Migration Pipeline, the unchanged table
for the Normalization Runner, which also never changes any unit table) —
so a unit of company A is never matched against or written into an item of
company B, even when unit names collide. -/
theorem company_isolation (cs : List Company) :
    List.Forall₂ (fun c c' =>
      ∀ x ∈ companyItems c',
        x ∈ companyItems c ∨ ∃ u ∈ c'.units, x.unit_id = some u.id)
      cs (runMigration cs) ∧
    List.Forall₂ (fun c c' => c'.units = c.units ∧
      ∀ x ∈ companyItems c',
        x ∈ companyItems c ∨ ∃ u ∈ c.units, x.unit_id = some u.id)
      cs (runNormalize cs) :=
  ⟨migrateCompanies_isolation cs 0, runNormalize_isolation cs⟩

/-- C10: a `null`/`undefined` entry in an otherwise proper items array makes
each batch process throw on its first field access of that entry (modelled:
the item loop returns `none`) instead of skipping it; the scripts' catch
blocks turn the throw into a whole-run ROLLBACK and a non-zero exit. With
the null entry removed, the same loops succeed — the record-level tolerance
for malformed `data`/`sections`/`items` does not extend to item entries. -/
theorem null_item_throws :
    migrateItemsJs [] 0
      [some ⟨some "a", some 1, some 2, none, some "m3", none, none, none⟩, none]
      = none ∧
    normalizeItemsJs []
      [some ⟨some "a", some 1, some 2, none, some "m3", none, none, none⟩, none]
      = none ∧
    cleanupItemsJs
      [some ⟨some "a", some 1, some 2, none, some "m3", none, none, none⟩, none]
      = none ∧
    (migrateItemsJs [] 0
      [some ⟨some "a", some 1, some 2, none, some "m3", none, none, none⟩]).isSome
      = true ∧
    (normalizeItemsJs []
      [some ⟨some "a", some 1, some 2, none, some "m3", none, none, none⟩]).isSome
      = true ∧
    (cleanupItemsJs
      [some ⟨some "a", some 1, some 2, none, some "m3", none, none, none⟩]).isSome
      = true := by
  refine ⟨by decide, by decide, by decide, by decide, by decide, by decide⟩


/-! ## Audit/Export CSV job (export script) and a CSV parser (C8)

The export script builds, for every BOQ / section / item, a 12-column row
`boq_id, boq_number, company_id, section_title, item_index, item_description,
unit_id, unit_name, unit_abbreviation, rate, quantity, line_total`, joins the
columns with `,` and the rows with `\n`. `boq_number` and `section_title` get
`replace(/\n/g,' ')` and are NOT quoted; `item_description`, `unit_name` and
`unit_abbreviation` are quoted with embedded `"` doubled (and newlines kept);
`unit_id` is raw (`|| ''`); the numeric columns print the number or ``.
The CSV text is modelled at the `List Char` level.

The repository contains no CSV reader, so the parser is modelled from the
spec: "Export followed by re-parsing the CSV" — `csvParse` is a standard
(RFC-4180-style) parser: fields split on `,`, records on `\n`, a field
starting with `"` is read in quoted mode where `""` is a literal quote and
newlines/commas are text. -/

/-- JS `.replace(/\n/g,' ')`. -/
def stripNl (l : List Char) : List Char := l.map (fun c => if c = '\n' then ' ' else c)

/-- JS `.replace(/"/g,'""')`. -/
def escQuotes : List Char → List Char
  | [] => []
  | c :: rest => if c = '"' then '"' :: '"' :: escQuotes rest else c :: escQuotes rest

/-- `'"' + s.replace(/"/g,'""') + '"'`. -/
def quoteField (s : List Char) : List Char := '"' :: (escQuotes s ++ ['"'])

/-- The decimal digit character for `n < 10`. -/
def digitChar (n : Nat) : Char := Char.ofNat (48 + n)

/-- Decimal rendering with explicit fuel (structural, so that concrete CSV
texts evaluate inside the kernel). -/
def natToStrAux : Nat → Nat → List Char
  | 0, _ => []
  | fuel + 1, n =>
      if n < 10 then [digitChar n]
      else natToStrAux fuel (n / 10) ++ [digitChar (n % 10)]

/-- Decimal rendering of a natural number (JS number-to-string for
non-negative integral values). -/
def natToStr (n : Nat) : List Char := natToStrAux (n + 1) n

/-- Decimal rendering of an integer. -/
def intToStr : Int → List Char
  | Int.ofNat n => natToStr n
  | Int.negSucc m => '-' :: natToStr (m + 1)

/-- `v !== undefined ? v : ''` for a numeric column. -/
def numField : Option Int → List Char
  | none => []
  | some n => intToStr n

/-- `row.join(',')`. -/
def joinComma : List (List Char) → List Char
  | [] => []
  | [c] => c
  | c :: rest => c ++ ',' :: joinComma rest

/-- `out.join('\n')`. -/
def joinNl : List (List Char) → List Char
  | [] => []
  | [r] => r
  | r :: rest => r ++ '\n' :: joinNl rest

/-- The 12 encoded columns of one item row, exactly as the export script
builds them. -/
def itemRowCols (b : Boq) (title : Option String) (ii : Nat) (it : Item) :
    List (List Char) :=
  [ b.id.data,
    stripNl b.number.data,
    b.company_id.data,
    stripNl (strVal title).data,
    natToStr ii,
    quoteField (strVal it.description).data,
    (strVal it.unit_id).data,
    quoteField (strVal it.unit_name).data,
    quoteField (strVal it.unit_abbreviation).data,
    numField it.rate,
    numField it.quantity,
    numField it.line_total ]

/-- The 12 column VALUES of one item row — what a CSV parser should hand
back for that row (quoting/escaping undone, `\n`-stripping of the unquoted
number/title columns kept, since the export discarded those newlines). -/
def itemRowVals (b : Boq) (title : Option String) (ii : Nat) (it : Item) :
    List (List Char) :=
  [ b.id.data,
    stripNl b.number.data,
    b.company_id.data,
    stripNl (strVal title).data,
    natToStr ii,
    (strVal it.description).data,
    (strVal it.unit_id).data,
    (strVal it.unit_name).data,
    (strVal it.unit_abbreviation).data,
    numField it.rate,
    numField it.quantity,
    numField it.line_total ]

/-- Encoded rows of one section (skipped when `items` is not an array);
`ii` is the zero-based index within the section. -/
def secRows (b : Boq) (s : Sec) : List (List Char) :=
  match s.items with
  | none => []
  | some its => its.enum.map (fun p => joinComma (itemRowCols b s.title p.1 p.2))

/-- Encoded rows of one BOQ (skipped when `data.sections` is not an array). -/
def boqRows (b : Boq) : List (List Char) :=
  match b.sections with
  | none => []
  | some secs => secs.flatMap (secRows b)

/-- All encoded item rows of the store, in export order. -/
def exportRows (bs : List Boq) : List (List Char) := bs.flatMap boqRows

/-- The header line pushed first by the export script. -/
def headerChars : List Char :=
  ("boq_id,boq_number,company_id,section_title,item_index,item_description," ++
   "unit_id,unit_name,unit_abbreviation,rate,quantity,line_total").data

/-- The full CSV text written by the export job. -/
def exportCsv (bs : List Boq) : List Char :=
  joinNl (headerChars :: exportRows bs)

/-- Expected parsed values of one section's rows. -/
def secRowVals (b : Boq) (s : Sec) : List (List (List Char)) :=
  match s.items with
  | none => []
  | some its => its.enum.map (fun p => itemRowVals b s.title p.1 p.2)

/-- Expected parsed values of one BOQ's rows. -/
def boqRowVals (b : Boq) : List (List (List Char)) :=
  match b.sections with
  | none => []
  | some secs => secs.flatMap (secRowVals b)

/-- Expected parsed values of all item rows. -/
def exportVals (bs : List Boq) : List (List (List Char)) := bs.flatMap boqRowVals

/-- The parsed header row: the 12 column names. -/
def headerVals : List (List Char) :=
  [ "boq_id".data, "boq_number".data, "company_id".data, "section_title".data,
    "item_index".data, "item_description".data, "unit_id".data, "unit_name".data,
    "unit_abbreviation".data, "rate".data, "quantity".data, "line_total".data ]

/-- Modelled from the spec: the repository ships no CSV reader, so the
"re-parsing the CSV" of the round-trip property is a standard CSV parser
state machine: `inQuotes` flag, current field, current record, finished records.
In quoted mode `""` is a literal quote and any other character (commas and
newlines included) is field text; in unquoted mode `,` ends a field, `\n`
ends a record, `"` enters quoted mode. -/
def csvAux : List Char → Bool → List Char → List (List Char) →
    List (List (List Char)) → List (List (List Char))
  | [], _, cur, flds, rows => rows ++ [flds ++ [cur]]
  | [c], true, cur, flds, rows =>
      if c = '"' then csvAux [] false cur flds rows
      else csvAux [] true (cur ++ [c]) flds rows
  | c :: d :: rest, true, cur, flds, rows =>
      if c = '"' then
        if d = '"' then csvAux rest true (cur ++ ['"']) flds rows
        else csvAux (d :: rest) false cur flds rows
      else csvAux (d :: rest) true (cur ++ [c]) flds rows
  | c :: rest, false, cur, flds, rows =>
      if c = '"' then csvAux rest true cur flds rows
      else if c = ',' then csvAux rest false [] (flds ++ [cur]) rows
      else if c = '\n' then csvAux rest false [] [] (rows ++ [flds ++ [cur]])
      else csvAux rest false (cur ++ [c]) flds rows

/-- Parse a whole CSV text into records of fields. -/
def csvParse (s : List Char) : List (List (List Char)) := csvAux s false [] [] []

/-- Modelled from the spec: decode a parsed string column back to the
stored optional string (`''` encodes an absent field). -/
def decodeStr (s : List Char) : Option String :=
  if s = [] then none else some ⟨s⟩

/-- Decimal parse accumulator. -/
def parseNatAcc : List Char → Nat → Nat
  | [], acc => acc
  | c :: rest, acc => parseNatAcc rest (acc * 10 + (c.toNat - 48))

/-- Decimal integer parse ('-' prefix for negatives). -/
def parseIntChars : List Char → Int
  | [] => (parseNatAcc [] 0 : Int)
  | c :: rest =>
      if c = '-' then -(parseNatAcc rest 0 : Int)
      else (parseNatAcc (c :: rest) 0 : Int)

/-- Modelled from the spec: decode a parsed numeric column back to the
stored optional number. -/
def decodeNum (s : List Char) : Option Int :=
  if s = [] then none else some (parseIntChars s)

/-- Characters that are plain field text for the parser. -/
abbrev csvSafe (l : List Char) : Prop := ∀ c ∈ l, c ≠ ',' ∧ c ≠ '"' ∧ c ≠ '\n'

/-- No comma and no quote (newlines allowed; used for the columns the
export strips newlines from). -/
abbrev noCQ (l : List Char) : Prop := ∀ c ∈ l, c ≠ ',' ∧ c ≠ '"'

/-- An encoded field together with the value a parser recovers for it:
either quoted (arbitrary value) or raw (safe value). -/
def fieldEnc (e v : List Char) : Prop :=
  e = quoteField v ∨ (e = v ∧ csvSafe v)

/-- Store states the export round-trips on: ids, numbers, titles and
unit_id values contain no separator/quote characters (DB UUIDs and real
BOQ numbers satisfy this), and string unit fields are absent rather than
empty (so that `''` in the CSV decodes unambiguously). -/
abbrev exportWF (bs : List Boq) : Prop :=
  ∀ b ∈ bs, csvSafe b.id.data ∧ noCQ b.number.data ∧ csvSafe b.company_id.data ∧
    ∀ s ∈ b.sections.getD [], noCQ (strVal s.title).data ∧
      ∀ it ∈ secItems s, csvSafe (strVal it.unit_id).data ∧
        it.unit_id ≠ some "" ∧ it.unit_name ≠ some "" ∧ it.unit_abbreviation ≠ some ""


theorem digitChar_toNat {d : Nat} (h : d < 10) : (digitChar d).toNat = 48 + d := by
  interval_cases d <;> decide

theorem digitChar_safe {d : Nat} (h : d < 10) :
    digitChar d ≠ ',' ∧ digitChar d ≠ '"' ∧ digitChar d ≠ '\n' ∧ digitChar d ≠ '-' := by
  interval_cases d <;> exact ⟨by decide, by decide, by decide, by decide⟩

/-- The fuel does not matter as long as it is positive enough. -/
theorem natToStrAux_fuel_irrel :
    ∀ (n f1 f2 : Nat), n < f1 → n < f2 → natToStrAux f1 n = natToStrAux f2 n := by
  intro n
  induction n using Nat.strong_induction_on with
  | _ n ih =>
      intro f1 f2 h1 h2
      cases f1 with
      | zero => omega
      | succ k1 =>
          cases f2 with
          | zero => omega
          | succ k2 =>
              simp only [natToStrAux]
              split
              · rfl
              · rename_i h
                rw [ih (n / 10) (Nat.div_lt_self (by omega) (by omega)) k1 k2
                  (by omega) (by omega)]

/-- One-step unfolding of the decimal rendering. -/
theorem natToStr_eq (n : Nat) :
    natToStr n = if n < 10 then [digitChar n]
                 else natToStr (n / 10) ++ [digitChar (n % 10)] := by
  show natToStrAux (n + 1) n = _
  rw [natToStrAux]
  split
  · rfl
  · rename_i h
    rw [natToStrAux_fuel_irrel (n / 10) n (n / 10 + 1)
      (by omega) (by omega)]
    rfl

theorem natToStr_ne_nil (n : Nat) : natToStr n ≠ [] := by
  rw [natToStr_eq]
  split
  · simp
  · simp

theorem natToStr_digits (n : Nat) : ∀ c ∈ natToStr n, ∃ d, d < 10 ∧ c = digitChar d := by
  induction n using Nat.strong_induction_on with
  | _ n ih =>
      rw [natToStr_eq]
      split
      · rename_i h
        intro c hc
        rw [List.mem_singleton] at hc
        exact ⟨n, h, hc⟩
      · rename_i h
        intro c hc
        rw [List.mem_append] at hc
        rcases hc with hc | hc
        · exact ih (n / 10) (Nat.div_lt_self (by omega) (by omega)) c hc
        · rw [List.mem_singleton] at hc
          exact ⟨n % 10, Nat.mod_lt _ (by omega), hc⟩

theorem natToStr_safe (n : Nat) : csvSafe (natToStr n) := by
  intro c hc
  obtain ⟨d, hd, rfl⟩ := natToStr_digits n c hc
  have h := digitChar_safe hd
  exact ⟨h.1, h.2.1, h.2.2.1⟩

theorem parseNatAcc_append (l1 l2 : List Char) :
    ∀ acc, parseNatAcc (l1 ++ l2) acc = parseNatAcc l2 (parseNatAcc l1 acc) := by
  induction l1 with
  | nil => intro acc; rfl
  | cons c r ih =>
      intro acc
      simp only [List.cons_append, parseNatAcc]
      exact ih _

theorem parseNatAcc_natToStr (n : Nat) :
    ∀ acc, parseNatAcc (natToStr n) acc = acc * 10 ^ (natToStr n).length + n := by
  induction n using Nat.strong_induction_on with
  | _ n ih =>
      intro acc
      rw [natToStr_eq]
      split
      · rename_i h
        simp only [parseNatAcc, List.length_singleton, pow_one, digitChar_toNat h]
        omega
      · rename_i h
        rw [parseNatAcc_append]
        rw [ih (n / 10) (Nat.div_lt_self (by omega) (by omega)) acc]
        simp only [parseNatAcc, List.length_append, List.length_singleton]
        rw [digitChar_toNat (Nat.mod_lt _ (by omega))]
        have h1 : 48 + n % 10 - 48 = n % 10 := by omega
        rw [h1, pow_succ, Nat.add_mul, Nat.add_assoc, Nat.mul_assoc]
        congr 1
        omega

theorem parseInt_intToStr (z : Int) : parseIntChars (intToStr z) = z := by
  cases z with
  | ofNat n =>
      have hz : intToStr (Int.ofNat n) = natToStr n := rfl
      rw [hz]
      cases hl : natToStr n with
      | nil => exact absurd hl (natToStr_ne_nil n)
      | cons c r =>
          have hc : c ≠ '-' := by
            have hm := natToStr_digits n c (by rw [hl]; simp)
            obtain ⟨d, hd, rfl⟩ := hm
            exact (digitChar_safe hd).2.2.2
          have hp : parseIntChars (c :: r) = (parseNatAcc (c :: r) 0 : Int) := by
            simp [parseIntChars, hc]
          rw [hp, ← hl, parseNatAcc_natToStr n 0]
          simp
  | negSucc m =>
      have hz : intToStr (Int.negSucc m) = '-' :: natToStr (m + 1) := rfl
      rw [hz]
      have hp : parseIntChars ('-' :: natToStr (m + 1)) =
          -(parseNatAcc (natToStr (m + 1)) 0 : Int) := by
        simp [parseIntChars]
      rw [hp, parseNatAcc_natToStr (m + 1) 0]
      simp [Int.negSucc_eq]

theorem decodeNum_numField (o : Option Int) : decodeNum (numField o) = o := by
  cases o with
  | none => rfl
  | some n =>
      have hne : intToStr n ≠ [] := by
        cases n with
        | ofNat k => exact natToStr_ne_nil k
        | negSucc m => simp [intToStr]
      simp only [numField, decodeNum, hne, if_false, parseInt_intToStr]

theorem decodeStr_strVal {o : Option String} (h : o ≠ some "") :
    decodeStr (strVal o).data = o := by
  cases o with
  | none => rfl
  | some s =>
      have hs : s ≠ "" := fun hc => h (by rw [hc])
      have hd : s.data ≠ [] := fun hc => hs ((str_eq_empty_iff s).mpr hc)
      simp only [decodeStr, strVal, hd, if_false]



/-- The text after a closing quote or a raw field must not begin with a
quote (it begins with `,`, `\n`, or is empty in the exported CSV). -/
def headNotQuote (t : List Char) : Prop := ∀ d r, t = d :: r → d ≠ '"'

theorem escQuotes_append_ne_nil (s : List Char) (t : List Char) (c : Char) :
    ∃ e es, escQuotes s ++ c :: t = e :: es := by
  cases h : escQuotes s ++ c :: t with
  | nil => simp at h
  | cons e es => exact ⟨e, es, rfl⟩

/-- Parsing escaped quoted text consumes it into the current field and
returns to unquoted mode at the closing quote. -/
theorem csvAux_quoted (s : List Char) :
    ∀ (cur : List Char) (flds : List (List Char)) (rows : List (List (List Char)))
      (t : List Char), headNotQuote t →
      csvAux (escQuotes s ++ '"' :: t) true cur flds rows =
        csvAux t false (cur ++ s) flds rows := by
  induction s with
  | nil =>
      intro cur flds rows t ht
      cases t with
      | nil => simp [escQuotes, csvAux]
      | cons d r =>
          have hd := ht d r rfl
          simp [escQuotes, csvAux, hd]
  | cons a s' ih =>
      intro cur flds rows t ht
      by_cases ha : a = '"'
      · subst ha
        have he : escQuotes ('"' :: s') = '"' :: '"' :: escQuotes s' := by
          simp [escQuotes]
        rw [he]
        have hstep : csvAux ('"' :: '"' :: (escQuotes s' ++ '"' :: t)) true cur flds rows =
            csvAux (escQuotes s' ++ '"' :: t) true (cur ++ ['"']) flds rows := by
          simp [csvAux]
        rw [List.cons_append, List.cons_append, hstep, ih (cur ++ ['"']) flds rows t ht]
        simp
      · have he : escQuotes (a :: s') = a :: escQuotes s' := by
          simp [escQuotes, ha]
        rw [he]
        obtain ⟨e, es, hE⟩ := escQuotes_append_ne_nil s' t '"'
        rw [List.cons_append, hE]
        have hstep : csvAux (a :: e :: es) true cur flds rows =
            csvAux (e :: es) true (cur ++ [a]) flds rows := by
          simp [csvAux, ha]
        rw [hstep, ← hE, ih (cur ++ [a]) flds rows t ht]
        simp

/-- Parsing a run of safe characters in unquoted mode accumulates them. -/
theorem csvAux_raw (s : List Char) (hs : csvSafe s) :
    ∀ (cur : List Char) (flds : List (List Char)) (rows : List (List (List Char)))
      (t : List Char),
      csvAux (s ++ t) false cur flds rows = csvAux t false (cur ++ s) flds rows := by
  induction s with
  | nil => intro cur flds rows t; simp
  | cons c s' ih =>
      intro cur flds rows t
      obtain ⟨hc1, hc2, hc3⟩ := hs c (by simp)
      have hstep : csvAux (c :: (s' ++ t)) false cur flds rows =
          csvAux (s' ++ t) false (cur ++ [c]) flds rows := by
        simp [csvAux, hc1, hc2, hc3]
      rw [List.cons_append, hstep, ih (fun x hx => hs x (by simp [hx])) (cur ++ [c]) flds rows t]
      simp

/-- Parsing one encoded field accumulates its value. -/
theorem csvAux_field {e v : List Char} (hev : fieldEnc e v) :
    ∀ (cur : List Char) (flds : List (List Char)) (rows : List (List (List Char)))
      (t : List Char), headNotQuote t →
      csvAux (e ++ t) false cur flds rows = csvAux t false (cur ++ v) flds rows := by
  rcases hev with hq | ⟨rfl, hsafe⟩
  · intro cur flds rows t ht
    subst hq
    have hquote : quoteField v ++ t = '"' :: (escQuotes v ++ '"' :: t) := by
      simp [quoteField]
    rw [hquote]
    have hstep : csvAux ('"' :: (escQuotes v ++ '"' :: t)) false cur flds rows =
        csvAux (escQuotes v ++ '"' :: t) true cur flds rows := by
      simp [csvAux]
    rw [hstep, csvAux_quoted v cur flds rows t ht]
  · intro cur flds rows t _
    exact csvAux_raw e hsafe cur flds rows t


/-- Parsing one encoded record followed by a newline appends its values as
one finished record. -/
theorem csvAux_record_nl :
    ∀ (encs vals : List (List Char)), List.Forall₂ fieldEnc encs vals → encs ≠ [] →
      ∀ (t : List Char) (flds : List (List Char)) (rows : List (List (List Char))),
        csvAux (joinComma encs ++ '\n' :: t) false [] flds rows =
          csvAux t false [] [] (rows ++ [flds ++ vals]) := by
  intro encs
  induction encs with
  | nil => intro vals hF hne; exact absurd rfl hne
  | cons e encs' ih =>
      intro vals hF hne t flds rows
      cases hF with
      | cons hv hF' =>
          rename_i v vals'
          cases encs' with
          | nil =>
              cases hF'
              have hj : joinComma [e] = e := rfl
              rw [hj]
              have hnl : headNotQuote ('\n' :: t) := by
                intro d r hdr hd
                injection hdr with h1 _
                rw [← h1] at hd
                exact absurd hd (by decide)
              rw [csvAux_field hv [] flds rows ('\n' :: t) hnl]
              have hstep : csvAux ('\n' :: t) false ([] ++ v) flds rows =
                  csvAux t false [] [] (rows ++ [flds ++ [[] ++ v]]) := by
                simp [csvAux]
              rw [hstep]
              simp
          | cons e2 encs'' =>
              have hj : joinComma (e :: e2 :: encs'') =
                  e ++ ',' :: joinComma (e2 :: encs'') := rfl
              rw [hj]
              have hcm : headNotQuote (',' :: (joinComma (e2 :: encs'') ++ '\n' :: t)) := by
                intro d r hdr hd
                injection hdr with h1 _
                rw [← h1] at hd
                exact absurd hd (by decide)
              have hassoc : (e ++ ',' :: joinComma (e2 :: encs'')) ++ '\n' :: t =
                  e ++ (',' :: (joinComma (e2 :: encs'') ++ '\n' :: t)) := by
                simp
              rw [hassoc, csvAux_field hv [] flds rows _ hcm]
              have hstep : csvAux (',' :: (joinComma (e2 :: encs'') ++ '\n' :: t)) false
                  ([] ++ v) flds rows =
                  csvAux (joinComma (e2 :: encs'') ++ '\n' :: t) false []
                    (flds ++ [[] ++ v]) rows := by
                simp [csvAux]
              rw [hstep, ih vals' hF' (by simp) t (flds ++ [[] ++ v]) rows]
              simp

/-- Parsing one encoded record at the end of the text flushes its values as
the final record. -/
theorem csvAux_record_eof :
    ∀ (encs vals : List (List Char)), List.Forall₂ fieldEnc encs vals → encs ≠ [] →
      ∀ (flds : List (List Char)) (rows : List (List (List Char))),
        csvAux (joinComma encs) false [] flds rows = rows ++ [flds ++ vals] := by
  intro encs
  induction encs with
  | nil => intro vals hF hne; exact absurd rfl hne
  | cons e encs' ih =>
      intro vals hF hne flds rows
      cases hF with
      | cons hv hF' =>
          rename_i v vals'
          cases encs' with
          | nil =>
              cases hF'
              have hj : joinComma [e] = e := rfl
              have hj2 : e = e ++ [] := by simp
              rw [hj, hj2, csvAux_field hv [] flds rows [] (by intro d r h; simp at h)]
              simp [csvAux]
          | cons e2 encs'' =>
              have hj : joinComma (e :: e2 :: encs'') =
                  e ++ ',' :: joinComma (e2 :: encs'') := rfl
              rw [hj]
              have hcm : headNotQuote (',' :: joinComma (e2 :: encs'')) := by
                intro d r hdr hd
                injection hdr with h1 _
                rw [← h1] at hd
                exact absurd hd (by decide)
              rw [csvAux_field hv [] flds rows _ hcm]
              have hstep : csvAux (',' :: joinComma (e2 :: encs'')) false ([] ++ v) flds rows =
                  csvAux (joinComma (e2 :: encs'')) false [] (flds ++ [[] ++ v]) rows := by
                simp [csvAux]
              rw [hstep, ih vals' hF' (by simp) (flds ++ [[] ++ v]) rows]
              simp

/-- Parsing a newline-joined list of encoded records yields their values. -/
theorem csvAux_records :
    ∀ (rs : List (List (List Char) × List (List Char))),
      (∀ r ∈ rs, List.Forall₂ fieldEnc r.1 r.2 ∧ r.1 ≠ []) → rs ≠ [] →
      ∀ (rows : List (List (List Char))),
        csvAux (joinNl (rs.map (fun r => joinComma r.1))) false [] [] rows =
          rows ++ rs.map (fun r => r.2) := by
  intro rs
  induction rs with
  | nil => intro h hne; exact absurd rfl hne
  | cons r rs' ih =>
      intro h hne rows
      obtain ⟨hF, hne1⟩ := h r (by simp)
      cases rs' with
      | nil =>
          have hj : joinNl ((r :: []).map (fun r => joinComma r.1)) = joinComma r.1 := rfl
          rw [hj, csvAux_record_eof r.1 r.2 hF hne1 [] rows]
          simp
      | cons r2 rs'' =>
          have hj : joinNl ((r :: r2 :: rs'').map (fun r => joinComma r.1)) =
              joinComma r.1 ++ '\n' :: joinNl ((r2 :: rs'').map (fun r => joinComma r.1)) := rfl
          rw [hj, csvAux_record_nl r.1 r.2 hF hne1 _ [] rows]
          rw [ih (fun x hx => h x (by simp [hx])) (by simp) (rows ++ [[] ++ r.2])]
          simp



/-- One exported row as an (encoded columns, column values) pair. -/
def itemRowRec (b : Boq) (title : Option String) (ii : Nat) (it : Item) :
    List (List Char) × List (List Char) :=
  (itemRowCols b title ii it, itemRowVals b title ii it)

/-- The row records of one section. -/
def secRecs (b : Boq) (s : Sec) : List (List (List Char) × List (List Char)) :=
  match s.items with
  | none => []
  | some its => its.enum.map (fun p => itemRowRec b s.title p.1 p.2)

/-- The row records of one BOQ. -/
def boqRecs (b : Boq) : List (List (List Char) × List (List Char)) :=
  match b.sections with
  | none => []
  | some secs => secs.flatMap (secRecs b)

/-- All row records of the store. -/
def exportRecs (bs : List Boq) : List (List (List Char) × List (List Char)) :=
  bs.flatMap boqRecs

theorem secRecs_fst (b : Boq) (s : Sec) :
    (secRecs b s).map (fun r => joinComma r.1) = secRows b s := by
  obtain ⟨t, itsf⟩ := s
  cases itsf with
  | none => rfl
  | some its => simp [secRecs, secRows, itemRowRec, List.map_map, Function.comp]

theorem secRecs_snd (b : Boq) (s : Sec) :
    (secRecs b s).map (fun r => r.2) = secRowVals b s := by
  obtain ⟨t, itsf⟩ := s
  cases itsf with
  | none => rfl
  | some its => simp [secRecs, secRowVals, itemRowRec, List.map_map, Function.comp]

theorem boqRecs_fst (b : Boq) :
    (boqRecs b).map (fun r => joinComma r.1) = boqRows b := by
  obtain ⟨i, n, cid, secsf⟩ := b
  cases secsf with
  | none => rfl
  | some secs =>
      simp only [boqRecs, boqRows]
      rw [flatMap_map_comm]
      congr 1
      funext s
      exact secRecs_fst _ s

theorem boqRecs_snd (b : Boq) :
    (boqRecs b).map (fun r => r.2) = boqRowVals b := by
  obtain ⟨i, n, cid, secsf⟩ := b
  cases secsf with
  | none => rfl
  | some secs =>
      simp only [boqRecs, boqRowVals]
      rw [flatMap_map_comm]
      congr 1
      funext s
      exact secRecs_snd _ s

theorem exportRecs_fst (bs : List Boq) :
    (exportRecs bs).map (fun r => joinComma r.1) = exportRows bs := by
  simp only [exportRecs, exportRows]
  rw [flatMap_map_comm]
  congr 1
  funext b
  exact boqRecs_fst b

theorem exportRecs_snd (bs : List Boq) :
    (exportRecs bs).map (fun r => r.2) = exportVals bs := by
  simp only [exportRecs, exportVals]
  rw [flatMap_map_comm]
  congr 1
  funext b
  exact boqRecs_snd b

theorem stripNl_safe {l : List Char} (h : noCQ l) : csvSafe (stripNl l) := by
  intro c hc
  simp only [stripNl, List.mem_map] at hc
  obtain ⟨a, ha, rfl⟩ := hc
  by_cases han : a = '\n'
  · subst han
    rw [if_pos rfl]
    exact ⟨by decide, by decide, by decide⟩
  · obtain ⟨h1, h2⟩ := h a ha
    rw [if_neg han]
    exact ⟨h1, h2, han⟩

theorem intToStr_safe (z : Int) : csvSafe (intToStr z) := by
  cases z with
  | ofNat n => exact natToStr_safe n
  | negSucc m =>
      intro c hc
      simp only [intToStr, List.mem_cons] at hc
      rcases hc with rfl | hc
      · exact ⟨by decide, by decide, by decide⟩
      · exact natToStr_safe (m + 1) c hc

theorem numField_safe (o : Option Int) : csvSafe (numField o) := by
  cases o with
  | none => intro c hc; simp [numField] at hc
  | some n => exact intToStr_safe n

/-- The 12 columns of an item row encode its 12 values, given the
well-formedness side conditions on the unquoted columns. -/
theorem itemRow_enc (b : Boq) (title : Option String) (ii : Nat) (it : Item)
    (hid : csvSafe b.id.data) (hnum : noCQ b.number.data)
    (hcid : csvSafe b.company_id.data) (htit : noCQ (strVal title).data)
    (huid : csvSafe (strVal it.unit_id).data) :
    List.Forall₂ fieldEnc (itemRowCols b title ii it) (itemRowVals b title ii it) := by
  unfold itemRowCols itemRowVals
  refine List.Forall₂.cons (Or.inr ⟨rfl, hid⟩) ?_
  refine List.Forall₂.cons (Or.inr ⟨rfl, stripNl_safe hnum⟩) ?_
  refine List.Forall₂.cons (Or.inr ⟨rfl, hcid⟩) ?_
  refine List.Forall₂.cons (Or.inr ⟨rfl, stripNl_safe htit⟩) ?_
  refine List.Forall₂.cons (Or.inr ⟨rfl, natToStr_safe ii⟩) ?_
  refine List.Forall₂.cons (Or.inl rfl) ?_
  refine List.Forall₂.cons (Or.inr ⟨rfl, huid⟩) ?_
  refine List.Forall₂.cons (Or.inl rfl) ?_
  refine List.Forall₂.cons (Or.inl rfl) ?_
  refine List.Forall₂.cons (Or.inr ⟨rfl, numField_safe it.rate⟩) ?_
  refine List.Forall₂.cons (Or.inr ⟨rfl, numField_safe it.quantity⟩) ?_
  exact List.Forall₂.cons (Or.inr ⟨rfl, numField_safe it.line_total⟩) List.Forall₂.nil

/-- The header columns encode themselves (all raw and safe). -/
theorem header_enc : List.Forall₂ fieldEnc headerVals headerVals := by
  unfold headerVals
  refine List.Forall₂.cons (Or.inr ⟨rfl, by decide⟩) ?_
  refine List.Forall₂.cons (Or.inr ⟨rfl, by decide⟩) ?_
  refine List.Forall₂.cons (Or.inr ⟨rfl, by decide⟩) ?_
  refine List.Forall₂.cons (Or.inr ⟨rfl, by decide⟩) ?_
  refine List.Forall₂.cons (Or.inr ⟨rfl, by decide⟩) ?_
  refine List.Forall₂.cons (Or.inr ⟨rfl, by decide⟩) ?_
  refine List.Forall₂.cons (Or.inr ⟨rfl, by decide⟩) ?_
  refine List.Forall₂.cons (Or.inr ⟨rfl, by decide⟩) ?_
  refine List.Forall₂.cons (Or.inr ⟨rfl, by decide⟩) ?_
  refine List.Forall₂.cons (Or.inr ⟨rfl, by decide⟩) ?_
  refine List.Forall₂.cons (Or.inr ⟨rfl, by decide⟩) ?_
  exact List.Forall₂.cons (Or.inr ⟨rfl, by decide⟩) List.Forall₂.nil

theorem headerChars_eq : headerChars = joinComma headerVals := by decide

theorem mem_of_mem_enumFrom {α : Type} :
    ∀ (l : List α) (n : Nat) (p : Nat × α), p ∈ l.enumFrom n → p.2 ∈ l := by
  intro l
  induction l with
  | nil => intro n p h; simp [List.enumFrom] at h
  | cons a t ih =>
      intro n p h
      simp only [List.enumFrom, List.mem_cons] at h
      rcases h with rfl | h
      · simp
      · exact List.mem_cons_of_mem _ (ih (n + 1) p h)

theorem mem_of_mem_enum {α : Type} {l : List α} {p : Nat × α} (h : p ∈ l.enum) :
    p.2 ∈ l :=
  mem_of_mem_enumFrom l 0 p h

/-- Every exported row record is a valid field encoding (on well-formed
stores). -/
theorem exportRecs_enc (bs : List Boq) (hwf : exportWF bs) :
    ∀ r ∈ exportRecs bs, List.Forall₂ fieldEnc r.1 r.2 ∧ r.1 ≠ [] := by
  intro r hr
  simp only [exportRecs, List.mem_flatMap] at hr
  obtain ⟨b, hb, hrb⟩ := hr
  obtain ⟨hid, hnum, hcid, hsec⟩ := hwf b hb
  unfold boqRecs at hrb
  cases hbs : b.sections with
  | none => rw [hbs] at hrb; simp at hrb
  | some secs =>
      rw [hbs] at hrb
      rw [List.mem_flatMap] at hrb
      obtain ⟨s, hs, hrs⟩ := hrb
      have hsec2 := hsec s (by rw [hbs]; simpa using hs)
      obtain ⟨htit, hits⟩ := hsec2
      unfold secRecs at hrs
      cases hsi : s.items with
      | none => rw [hsi] at hrs; simp at hrs
      | some its =>
          rw [hsi] at hrs
          rw [List.mem_map] at hrs
          obtain ⟨p, hp, rfl⟩ := hrs
          have hmem : p.2 ∈ secItems s := by
            unfold secItems
            rw [hsi]
            simpa using mem_of_mem_enum hp
          obtain ⟨huid, _, _, _⟩ := hits p.2 hmem
          constructor
          · exact itemRow_enc b s.title p.1 p.2 hid hnum hcid htit huid
          · unfold itemRowRec itemRowCols
            simp

/-- C8 amended: the export/parse round-trip. On any store whose BOQ ids,
numbers, company ids, section titles and unit_id values are free of
separator/quote characters (as DB UUIDs and real document numbers are) and
whose string unit fields are absent rather than empty, parsing the exported
CSV yields exactly the header row followed by one record of column values
per item, with the quoted columns (description, unit_name,
unit_abbreviation) restored verbatim — embedded quotes are doubled on
export and undoubled on parse, and embedded newlines/commas survive inside
the quotes (they are NOT stripped to spaces; only the unquoted boq_number
and section_title columns have newlines replaced by spaces, and those are
not among the recovered fields) — and decoding the `unit_id`, `unit_name`,
`unit_abbreviation`, `rate` and `quantity` columns of an item's record
returns exactly the stored field values. -/
theorem export_roundtrip (bs : List Boq) (hwf : exportWF bs) :
    csvParse (exportCsv bs) = headerVals :: exportVals bs ∧
    (∀ b ∈ bs, ∀ s ∈ b.sections.getD [], ∀ it ∈ secItems s, ∀ ii : Nat,
      decodeStr ((itemRowVals b s.title ii it).getD 6 []) = it.unit_id ∧
      decodeStr ((itemRowVals b s.title ii it).getD 7 []) = it.unit_name ∧
      decodeStr ((itemRowVals b s.title ii it).getD 8 []) = it.unit_abbreviation ∧
      decodeNum ((itemRowVals b s.title ii it).getD 9 []) = it.rate ∧
      decodeNum ((itemRowVals b s.title ii it).getD 10 []) = it.quantity) := by
  constructor
  · have hrecs : exportCsv bs =
        joinNl (((headerVals, headerVals) :: exportRecs bs).map (fun r => joinComma r.1)) := by
      unfold exportCsv
      congr 1
      simp only [List.map_cons]
      rw [headerChars_eq, exportRecs_fst]
    rw [show csvParse (exportCsv bs) = csvAux (exportCsv bs) false [] [] [] from rfl, hrecs]
    rw [csvAux_records ((headerVals, headerVals) :: exportRecs bs) ?henc (by simp) []]
    · simp only [List.map_cons, List.nil_append]
      rw [exportRecs_snd]
    case henc =>
      intro r hr
      rw [List.mem_cons] at hr
      rcases hr with rfl | hr
      · exact ⟨header_enc, by unfold headerVals; simp⟩
      · exact exportRecs_enc bs hwf r hr
  · intro b hb s hs it hit ii
    obtain ⟨_, _, _, hsec⟩ := hwf b hb
    obtain ⟨_, hits⟩ := hsec s hs
    obtain ⟨_, h1, h2, h3⟩ := hits it hit
    refine ⟨?_, ?_, ?_, ?_, ?_⟩
    · show decodeStr (strVal it.unit_id).data = it.unit_id
      exact decodeStr_strVal h1
    · show decodeStr (strVal it.unit_name).data = it.unit_name
      exact decodeStr_strVal h2
    · show decodeStr (strVal it.unit_abbreviation).data = it.unit_abbreviation
      exact decodeStr_strVal h3
    · show decodeNum (numField it.rate) = it.rate
      exact decodeNum_numField it.rate
    · show decodeNum (numField it.quantity) = it.quantity
      exact decodeNum_numField it.quantity


/-- Witness for the C8 amended theorem at a concrete store: a BOQ with one
item whose unit fields, rate and quantity are populated. -/
theorem export_roundtrip_witness :
    csvParse (exportCsv [⟨"b1", "BOQ-1", "c1", some [⟨some "Works", some
        [⟨some "Excavation", some 10, some 1500, some 15000, none,
          some "m3", some "u1", some "m3"⟩]⟩]⟩]) =
      headerVals :: exportVals [⟨"b1", "BOQ-1", "c1", some [⟨some "Works", some
        [⟨some "Excavation", some 10, some 1500, some 15000, none,
          some "m3", some "u1", some "m3"⟩]⟩]⟩] :=
  (export_roundtrip [⟨"b1", "BOQ-1", "c1", some [⟨some "Works", some
      [⟨some "Excavation", some 10, some 1500, some 15000, none,
        some "m3", some "u1", some "m3"⟩]⟩]⟩] (by
    intro b hb
    simp only [List.mem_singleton] at hb
    subst hb
    refine ⟨by decide, by decide, by decide, ?_⟩
    intro s hs
    simp only [Option.getD_some, List.mem_singleton] at hs
    subst hs
    refine ⟨by decide, ?_⟩
    intro it hit
    simp only [secItems, Option.getD_some, List.mem_singleton] at hit
    subst hit
    exact ⟨by decide, by decide, by decide, by decide⟩)).1

set_option maxRecDepth 8000 in
/-- C8 counterexample: the claim fails as stated. (1) For a BOQ whose
`number` is `"A,B"` (the number column is unquoted), the exported record
splits into 13 fields and the `unit_name` column of the parse does not
recover the stored `"kg"` — so the round-trip does not hold for every
stored item. (2) For an item with `unit_name` `"a\nb"`, the exported
quoted field keeps the newline and the parse returns it verbatim — so
embedded newlines in string fields are NOT stripped to spaces as the claim
asserts. -/
theorem export_roundtrip_cex :
    ((csvParse (exportCsv [⟨"b1", "A,B", "c1", some [⟨none, some
        [⟨none, none, none, none, none, some "kg", some "u1", none⟩]⟩]⟩])).getD 1 []).getD 7 []
      ≠ (strVal (some "kg")).data ∧
    ((csvParse (exportCsv [⟨"b1", "B-1", "c1", some [⟨none, some
        [⟨none, none, none, none, none, some "a\nb", some "u1", none⟩]⟩]⟩])).getD 1 []).getD 7 []
      = ('a' :: '\n' :: 'b' :: []) ∧
    ('a' :: '\n' :: 'b' :: []) ≠ ('a' :: ' ' :: 'b' :: []) := by
  refine ⟨by decide, by decide, by decide⟩

end Layons
